import Mathlib

/-!
Verification of the `decorator` Go package.

A shallow embedding of `decorator.go` (package `decorator`): a library that
renders source lines with coloured spans and above/below comment annotations.

Modelling conventions:
* Go `int` is modelled as `Int` (no overflow is relevant here: only small
  indices and lengths occur).
* Go strings are indexed by bytes; we model a string as a Lean `String`
  (a sequence of `Char`), which coincides with the byte view on ASCII data.
  The connector glyph written by `WriteRune` is modelled as one `Char`.
* Go string slicing `s[lo:hi]` panics unless `0 ≤ lo ≤ hi ≤ len(s)`;
  we model it as `goSlice`, returning `none` on panic.  Any code path that
  can reach a panicking slice is therefore `Option`-valued, and a render
  that would panic in Go evaluates to `none`.
* `sort.Slice(colours, ...)` sorts in place with comparator `From <`.
  Go does not specify the order of ties; for slices shorter than 12 the Go
  runtime uses a stable insertion sort.  The embedding fixes the stable
  insertion sort (`List.insertionSort` on `From ≤`) as a deterministic
  refinement of this behaviour; the caveat matters only to tie-breaking.
* Methods that mutate the receiver (`AddLine`, `String`, ...) are modelled
  as functions returning the new state; `String` additionally returns the
  rendered output, since rendering mutates the document (prefix memoization
  and in-place colour sorting).
-/

/-- The reset token (`Normal` in `decorator.go`; renamed: Mathlib already
has a root-level `Normal`): the ANSI escape `ESC[0m`. -/
def NormalColour : String := "\x1b[0m"

/-- The `FgRed` colour token from `decorator.go`. -/
def FgRed : String := "\x1b[31m"

/-- The `FgGreen` colour token from `decorator.go`. -/
def FgGreen : String := "\x1b[32m"

/-- Embeds `LineColour` from `decorator.go`: colour a half-open index range of a line.
`Colour` is the opaque styling token (`LineColourEnum` is a string type). -/
structure LineColour where
  From : Int
  To : Int
  Colour : String
deriving DecidableEq, Repr

/-- Embeds `LineMetadata` from `decorator.go`.  The unexported field `cachedPrefix`
is named `cachedPfx` here. -/
structure LineMetadata where
  LineNumber : Int
  FileName : String
  cachedPfx : String := ""
deriving DecidableEq, Repr

/-- Embeds `commentInfo` from `decorator.go`: one annotation, anchored at byte
column `at_` (`at` in the source), with its own colour ranges. -/
structure commentInfo where
  at_ : Int
  text : String
  colours : List LineColour
deriving DecidableEq, Repr

/-- Embeds `lineInfo` from `decorator.go`. -/
structure lineInfo where
  text : String
  colours : List LineColour
  meta : LineMetadata
  topComments : List commentInfo
  bottomComments : List commentInfo
deriving DecidableEq, Repr

/-- Embeds `Decorator` from `decorator.go`. -/
structure Decorator where
  lines : List lineInfo
deriving DecidableEq, Repr

/-- Go `strings.ContainsAny(s, chars)`: does `s` contain any char of `chars`? -/
def containsAny (s chars : String) : Bool :=
  s.toList.any fun ch => chars.toList.contains ch

/-- Replace the element at index `i` (no-op when out of range), as Go's
`dec.lines[line].x = ...` does after a bounds check. -/
def updateAt {α : Type} (l : List α) (i : Nat) (f : α → α) : List α :=
  match l, i with
  | [], _ => []
  | x :: xs, 0 => f x :: xs
  | x :: xs, n + 1 => x :: updateAt xs n f

/-- Embeds `Decorator.AddLine`: append a line after rejecting control characters. -/
def AddLine (dec : Decorator) (line : String) (meta : LineMetadata) : Option Decorator :=
  if containsAny line "\n\t\r" then none
  else some ⟨dec.lines ++ [⟨line, [], meta, [], []⟩]⟩

/-- Embeds `Decorator.AddBottomComment`: reject control characters, then bad line
indices, then append a bottom comment record. -/
def AddBottomComment (dec : Decorator) (line : Int) (at_ : Int) (comment : String) :
    Option Decorator :=
  if containsAny comment "\n\t\r" then none
  else if line < 0 ∨ line ≥ (dec.lines.length : Int) then none
  else some ⟨updateAt dec.lines line.toNat fun li =>
    { li with bottomComments := li.bottomComments ++ [⟨at_, comment, []⟩] }⟩

/-- Embeds `Decorator.AddTopComment`: same checks as `AddBottomComment`, appends a
top comment record. -/
def AddTopComment (dec : Decorator) (line : Int) (at_ : Int) (comment : String) :
    Option Decorator :=
  if containsAny comment "\n\t\r" then none
  else if line < 0 ∨ line ≥ (dec.lines.length : Int) then none
  else some ⟨updateAt dec.lines line.toNat fun li =>
    { li with topComments := li.topComments ++ [⟨at_, comment, []⟩] }⟩

/-- Embeds `Decorator.ColourLine`: append a colour range to a line. -/
def ColourLine (dec : Decorator) (line : Int) (colour : LineColour) : Option Decorator :=
  if line < 0 ∨ line ≥ (dec.lines.length : Int) then none
  else some ⟨updateAt dec.lines line.toNat fun li =>
    { li with colours := li.colours ++ [colour] }⟩

/-- Embeds `Decorator.ColourBottomComment`: append a colour range to a bottom
comment, after validating both indices. -/
def ColourBottomComment (dec : Decorator) (line : Int) (comment : Int) (colour : LineColour) :
    Option Decorator :=
  if line < 0 ∨ line ≥ (dec.lines.length : Int) then none
  else if comment < 0 ∨
      comment ≥ (((dec.lines.get? line.toNat).map (·.bottomComments.length)).getD 0 : Int) then none
  else some ⟨updateAt dec.lines line.toNat fun li =>
    { li with bottomComments := updateAt li.bottomComments comment.toNat fun c =>
        { c with colours := c.colours ++ [colour] } }⟩

/-- Embeds `Decorator.ColourTopComment`: append a colour range to a top comment,
after validating both indices. -/
def ColourTopComment (dec : Decorator) (line : Int) (comment : Int) (colour : LineColour) :
    Option Decorator :=
  if line < 0 ∨ line ≥ (dec.lines.length : Int) then none
  else if comment < 0 ∨
      comment ≥ (((dec.lines.get? line.toNat).map (·.topComments.length)).getD 0 : Int) then none
  else some ⟨updateAt dec.lines line.toNat fun li =>
    { li with topComments := updateAt li.topComments comment.toNat fun c =>
        { c with colours := c.colours ++ [colour] } }⟩

/-! ## The span colorizer (`writeColoured`) -/

/-- Go string slicing `s[lo:hi]`: defined when `0 ≤ lo ≤ hi ≤ len(s)`,
a runtime panic (`none`) otherwise. -/
def goSlice (s : String) (lo hi : Int) : Option String :=
  if 0 ≤ lo ∧ lo ≤ hi ∧ hi ≤ (s.length : Int) then
    some (String.mk ((s.toList.drop lo.toNat).take (hi - lo).toNat))
  else none

/-- The in-place `sort.Slice(colours, From <)` of `writeColoured`, modelled as
a stable insertion sort on `From ≤` (see the header note on tie order). -/
def sortColours (l : List LineColour) : List LineColour :=
  l.insertionSort fun a b => a.From ≤ b.From

/-- The main loop of `writeColoured`: walk the sorted ranges keeping the paint
cursor `start`; clamp `From` up to the cursor, emit the unpainted gap, the
colour token, the painted slice and the reset token; finally emit the
unpainted suffix.  `none` models the Go slice panic. -/
def paintRanges (text : String) : Int → List LineColour → Option String
  | start, [] =>
    if start < (text.length : Int) then goSlice text start (text.length : Int) else some ""
  | start, c :: rest => do
    let clamped : Int := if start > c.From then start else c.From
    let gap ← goSlice text start clamped
    let painted ← goSlice text clamped c.To
    let tail ← paintRanges text c.To rest
    pure (gap ++ c.Colour ++ painted ++ NormalColour ++ tail)

/-- Embeds `writeColoured` from `decorator.go`: sorts `colours` in place (the sorted
list is returned as the second component, modelling the mutation of the
caller's slice), then paints `text`. -/
def writeColoured (text : String) (colours : List LineColour) :
    Option (String × List LineColour) :=
  (paintRanges text 0 (sortColours colours)).map fun s => (s, sortColours colours)

/-! ## Row construction -/

/-- Embeds `writePadding`: `amount` spaces (none when `amount ≤ 0`, as the Go loop
does not run). -/
def writePadding (amount : Int) : String :=
  String.mk (List.replicate amount.toNat ' ')

/-- Embeds `writePrefix`: the gutter of one row - the prefix, padded on the right to
the longest prefix length, then `" | "`. -/
def writePfx (pfx : String) (longest : Nat) : String :=
  pfx ++ writePadding ((longest : Int) - (pfx.length : Int)) ++ " | "

/-- The tail of one below-row scan (`writeBottomComments`, inner loop after
the first not-yet-revealed comment): every later comment whose column has not
been passed by the cursor gets padding and a `│` connector; comments whose
column lies before the cursor are skipped. -/
def bottomScanRest : List commentInfo → Int → String
  | [], _ => ""
  | c :: cs, cursor =>
    if cursor > c.at_ then bottomScanRest cs cursor
    else writePadding (c.at_ - cursor) ++ "│" ++ bottomScanRest cs (c.at_ + 1)

/-- One below-row body (`writeBottomComments`, inner loop).  The argument is
the suffix of comments from index `commentsWritten` on (the Go loop starts at
`k := commentsWritten`).  Returns the row text, the revealed comment (with
its colours sorted in place) when this is a reveal row, and the remaining
suffix.  `none` models a panic inside `writeColoured`. -/
def bottomRowBody (mod : Nat) : List commentInfo → Option (String × Option commentInfo × List commentInfo)
  | [] => some ("", none, [])
  | c :: cs =>
    if (0 : Int) > c.at_ then
      -- the head is skipped on this row (`cursor > comment.at`); every later
      -- comment takes the else-branch and draws a connector
      some (bottomScanRest cs 0, none, c :: cs)
    else if mod = 0 then
      some (writePadding c.at_ ++ "│" ++ bottomScanRest cs (c.at_ + 1), none, c :: cs)
    else if mod = 1 then
      some (writePadding c.at_ ++ "v" ++ bottomScanRest cs (c.at_ + 1), none, c :: cs)
    else do
      let (painted, sorted) ← writeColoured c.text c.colours
      pure (writePadding c.at_ ++ painted ++
              bottomScanRest cs (c.at_ + (c.text.length : Int)),
            some { c with colours := sorted }, cs)

/-- The outer loop of `writeBottomComments`: one iteration per row, `fuel`
rows in total, `j` the Go loop counter (only `j % 3` is consumed).  `doneRev`
holds the already-revealed comments in reverse (they are never scanned again:
the Go inner loop starts at `commentsWritten`), `todo` the rest. -/
def bottomLoop (gutter : String) :
    Nat → Nat → List commentInfo → List commentInfo → Option (String × List commentInfo)
  | 0, _, doneRev, todo => some ("", doneRev.reverse ++ todo)
  | fuel + 1, j, doneRev, todo => do
    let (body, rev, todo') ← bottomRowBody (j % 3) todo
    let doneRev' := match rev with | some c => c :: doneRev | none => doneRev
    let (rest, fin) ← bottomLoop gutter fuel (j + 1) doneRev' todo'
    pure (gutter ++ body ++ "\n" ++ rest, fin)

/-- Embeds `writeBottomComments` from `decorator.go`: `3 * N` rows.  Returns the row
block and the comment list as left in the decorator (colours of revealed
comments sorted in place). -/
def writeBottomComments (longest : Nat) (comments : List commentInfo) :
    Option (String × List commentInfo) :=
  bottomLoop (writePfx "" longest) (3 * comments.length) 0 [] comments

/-- One above-row scan (`writeTopComments`, inner loop): walks the whole
comment list (`k := 0`), carrying the element index `k`, the reveal counter
`cw` (`commentsWritten`), the cursor, and the `written` flag.  Returns the
row text, the updated `cw`, and the comment list with in-place colour sorts
applied. -/
def topScanAux (mod : Nat) :
    List commentInfo → Nat → Nat → Int → Bool → Option (String × Nat × List commentInfo)
  | [], _, cw, _, _ => some ("", cw, [])
  | c :: cs, k, cw, cursor, written =>
    if cursor > c.at_ then do
      let (s, cw', cs') ← topScanAux mod cs (k + 1) cw cursor written
      pure (s, cw', c :: cs')
    else
      let pad := writePadding (c.at_ - cursor)
      if k = cw ∧ written = false ∧ mod = 0 then do
        let (painted, sorted) ← writeColoured c.text c.colours
        let (s, cw', cs') ← topScanAux mod cs (k + 1) (cw + 1) (c.at_ + (c.text.length : Int)) true
        pure (pad ++ painted ++ s, cw', { c with colours := sorted } :: cs')
      else if k + 1 = cw ∧ mod = 1 then do
        let (s, cw', cs') ← topScanAux mod cs (k + 1) cw (c.at_ + 1) written
        pure (pad ++ "^" ++ s, cw', c :: cs')
      else if k < cw then do
        let (s, cw', cs') ← topScanAux mod cs (k + 1) cw (c.at_ + 1) written
        pure (pad ++ "│" ++ s, cw', c :: cs')
      else do
        -- no branch applies: the padding was still emitted and the cursor
        -- was still moved to the comment's column
        let (s, cw', cs') ← topScanAux mod cs (k + 1) cw c.at_ written
        pure (pad ++ s, cw', c :: cs')

/-- The outer loop of `writeTopComments`: `fuel` rows, `j` the row counter,
`cw` persists across rows. -/
def topLoop (gutter : String) :
    Nat → Nat → Nat → List commentInfo → Option (String × List commentInfo)
  | 0, _, _, comments => some ("", comments)
  | fuel + 1, j, cw, comments => do
    let (body, cw', comments') ← topScanAux (j % 3) comments 0 cw 0 false
    let (rest, fin) ← topLoop gutter fuel (j + 1) cw' comments'
    pure (gutter ++ body ++ "\n" ++ rest, fin)

/-- Embeds `writeTopComments` from `decorator.go`. -/
def writeTopComments (longest : Nat) (comments : List commentInfo) :
    Option (String × List commentInfo) :=
  topLoop (writePfx "" longest) (3 * comments.length) 0 0 comments

/-! ## The renderer (`String`) -/

/-- Embeds `LineMetadata.generatePrefix`: memoize `"<FileName> @ <LineNumber>"` into
the cache field (compute only when the cache is empty). -/
def generatePfx (meta : LineMetadata) : LineMetadata :=
  if meta.cachedPfx = "" then
    { meta with cachedPfx := meta.FileName ++ " @ " ++ toString meta.LineNumber }
  else meta

/-- Pass 2 of `Decorator.String` for one line: top rows, the line's own row
(gutter, painted text, newline), bottom rows.  Returns the rendered text and
the line as mutated in place. -/
def renderLine (longest : Nat) (l : lineInfo) : Option (String × lineInfo) := do
  let (topS, tops) ← writeTopComments longest l.topComments
  let (lineS, cols) ← writeColoured l.text l.colours
  let (botS, bots) ← writeBottomComments longest l.bottomComments
  pure (topS ++ writePfx l.meta.cachedPfx longest ++ lineS ++ "\n" ++ botS,
        { l with colours := cols, topComments := tops, bottomComments := bots })

/-- Pass 2 of `Decorator.String` over all lines. -/
def renderLines (longest : Nat) : List lineInfo → Option (String × List lineInfo)
  | [] => some ("", [])
  | l :: ls => do
    let (s, l') ← renderLine longest l
    let (rest, ls') ← renderLines longest ls
    pure (s ++ rest, l' :: ls')

/-- Embeds `Decorator.String`: pass 1 generates (and caches) every line's prefix and
takes the longest length; pass 2 renders every line.  Returns the rendered
string and the decorator as left mutated; `none` models a Go panic. -/
def longestPfx (lines1 : List lineInfo) : Nat :=
  (lines1.map fun l => l.meta.cachedPfx.length).foldl Nat.max 0

def DecoratorString (dec : Decorator) : Option (String × Decorator) :=
  (renderLines (longestPfx (dec.lines.map fun l => { l with meta := generatePfx l.meta }))
      (dec.lines.map fun l => { l with meta := generatePfx l.meta })).map
    fun p => (p.1, ⟨p.2⟩)

/-! ## Auxiliary definitions used by the statements -/

/-- Default used with `List.getD` over lines. -/
def lineDefault : lineInfo := ⟨"", [], ⟨0, "", ""⟩, [], []⟩

/-- Default used with `List.getD` over comments. -/
def commentDefault : commentInfo := ⟨0, "", []⟩

/-- Split a character list on newlines (structurally, so that concrete
instances evaluate in the kernel). -/
def splitRows : List Char → List (List Char)
  | [] => [[]]
  | c :: cs =>
    if c = '\n' then [] :: splitRows cs
    else
      match splitRows cs with
      | r :: rs => (c :: r) :: rs
      | [] => [[c]]

/-- The character of row `row` (0-based, rows separated by newline) at column
`col` of a rendered block, if any. -/
def charAtRow (s : String) (row col : Nat) : Option Char :=
  ((splitRows s.toList).getD row []).get? col

/-- Number of newline characters, i.e. number of rendered rows. -/
def countRows (s : String) : Nat := s.toList.count '\n'

/-- A colour-range list is well-formed for `text` in the sense of the spec
(`0 ≤ from ≤ to ≤ length(text)`), and moreover its sorted form has
non-decreasing `To` (no range strictly nested inside an earlier-starting
one).  The second condition is what the amended C1 needs: without it the
clamped `From` can exceed `To` and `writeColoured` panics. -/
def colourOK (text : String) (cs : List LineColour) : Prop :=
  (∀ r ∈ cs, 0 ≤ r.From ∧ r.From ≤ r.To ∧ r.To ≤ (text.length : Int)) ∧
    (sortColours cs).Pairwise fun a b => a.To ≤ b.To

instance (text : String) (cs : List LineColour) : Decidable (colourOK text cs) := by
  unfold colourOK; infer_instance

/-- Every colour-range list reachable in a render of `dec` is `colourOK`. -/
def decColoursOK (dec : Decorator) : Prop :=
  ∀ l ∈ dec.lines, colourOK l.text l.colours ∧
    (∀ c ∈ l.topComments, colourOK c.text c.colours) ∧
    (∀ c ∈ l.bottomComments, colourOK c.text c.colours)

instance (dec : Decorator) : Decidable (decColoursOK dec) := by
  unfold decColoursOK; infer_instance

/-- Every colour range of the document lies within its text, in the sense of
claim C1 (`0 ≤ From ≤ To ≤ length`). -/
def rangesWithinText (dec : Decorator) : Prop :=
  ∀ l ∈ dec.lines, ∀ r ∈ l.colours,
    0 ≤ r.From ∧ r.From ≤ r.To ∧ r.To ≤ (l.text.length : Int)

instance (dec : Decorator) : Decidable (rangesWithinText dec) := by
  unfold rangesWithinText; infer_instance

/-- The gutter as claim C5 words it: the prefix left-padded with spaces to
the longest width, then `" | "`.  (The source right-pads instead; this
definition follows the claim, for the refutation.) -/
def leftPadPfxSpec (pfx : String) (longest : Nat) : String :=
  writePadding ((longest : Int) - (pfx.length : Int)) ++ pfx ++ " | "

/-- The below-side layout as laid out by the engine, in closed form: for each
annotation in order, a lead row (connector at its column), an arrow row
(`v` at its column), and a reveal row (its text at its column), each row
followed by connectors for the later, not-yet-revealed annotations at their
columns (skipped when the cursor has passed them), and nothing at the columns
of already-revealed annotations. -/
def belowRowsSpec (gutter : String) : List commentInfo → String
  | [] => ""
  | c :: cs =>
    gutter ++ writePadding c.at_ ++ "│" ++ bottomScanRest cs (c.at_ + 1) ++ "\n" ++
    (gutter ++ writePadding c.at_ ++ "v" ++ bottomScanRest cs (c.at_ + 1) ++ "\n" ++
    (gutter ++ writePadding c.at_ ++ c.text ++
        bottomScanRest cs (c.at_ + (c.text.length : Int)) ++ "\n" ++
    belowRowsSpec gutter cs))

/-- The prefix `"<FileName> @ <LineNumber>"` of a line, as pass 1 computes it
on a fresh (empty) cache. -/
def plainPfx (l : lineInfo) : String :=
  l.meta.FileName ++ " @ " ++ toString l.meta.LineNumber

/-- The expected output of `Decorator.String` for a document with no
comments and no colours: per line, its prefix right-padded to the longest
prefix width, `" | "`, the raw text, and a newline. -/
def plainRowsSpec (longest : Nat) : List lineInfo → String
  | [] => ""
  | l :: ls => plainPfx l ++ writePadding ((longest : Int) - ((plainPfx l).length : Int)) ++
      " | " ++ l.text ++ "\n" ++ plainRowsSpec longest ls

/-- A line is bare when it carries no colours and no comments and a fresh
prefix cache (exactly what `AddLine` produces). -/
def bareLine (l : lineInfo) : Prop :=
  l.colours = [] ∧ l.topComments = [] ∧ l.bottomComments = [] ∧ l.meta.cachedPfx = ""

instance (l : lineInfo) : Decidable (bareLine l) := by
  unfold bareLine; infer_instance

/-- In-place colour sort of one comment (what a reveal leaves behind). -/
def sortComment (c : commentInfo) : commentInfo :=
  { c with colours := sortColours c.colours }

/-- Rendering leaves a comment either untouched or with its colours sorted
in place; position and text never change. -/
def commentUpd (c c' : commentInfo) : Prop :=
  c' = c ∨ c' = sortComment c

/-- Two comments that paint identically: same anchor and text, and the same
colours up to the in-place sort. -/
def paintEq (c c' : commentInfo) : Prop :=
  c.at_ = c'.at_ ∧ c.text = c'.text ∧ sortColours c.colours = sortColours c'.colours

/-- What claim C4 concedes after correction: rendering preserves each line's
text and metadata identity and permutes (by the in-place sort) each colour
list; comments keep their anchor and text and have their colour lists
permuted at most. -/
def lineStateSim (l l' : lineInfo) : Prop :=
  l'.text = l.text ∧ l'.meta.FileName = l.meta.FileName ∧
    l'.meta.LineNumber = l.meta.LineNumber ∧ l'.colours.Perm l.colours ∧
    l'.topComments.length = l.topComments.length ∧
    (∀ i, i < l.topComments.length →
      (l'.topComments.getD i commentDefault).at_ = (l.topComments.getD i commentDefault).at_ ∧
      (l'.topComments.getD i commentDefault).text = (l.topComments.getD i commentDefault).text ∧
      ((l'.topComments.getD i commentDefault).colours).Perm
        ((l.topComments.getD i commentDefault).colours)) ∧
    l'.bottomComments.length = l.bottomComments.length ∧
    (∀ i, i < l.bottomComments.length →
      (l'.bottomComments.getD i commentDefault).at_ = (l.bottomComments.getD i commentDefault).at_ ∧
      (l'.bottomComments.getD i commentDefault).text = (l.bottomComments.getD i commentDefault).text ∧
      ((l'.bottomComments.getD i commentDefault).colours).Perm
        ((l.bottomComments.getD i commentDefault).colours))

/-- Relate two optional results pointwise (`none` with `none`). -/
def optRel {α β : Type} (R : α → β → Prop) : Option α → Option β → Prop
  | none, none => True
  | some a, some b => R a b
  | _, _ => False

/-- Two comments that render identically on every row: same anchor and text,
and colours equal up to the pending in-place sort. -/
def commentPaintEq (c c' : commentInfo) : Prop :=
  c.at_ = c'.at_ ∧ c.text = c'.text ∧ sortColours c.colours = sortColours c'.colours

/-- What one render leaves of a line: same text and metadata, colours sorted
in place, comments updated in place at reveals. -/
def lineUpd (l l' : lineInfo) : Prop :=
  l'.text = l.text ∧ l'.meta = l.meta ∧ l'.colours = sortColours l.colours ∧
    List.Forall₂ commentUpd l.topComments l'.topComments ∧
    List.Forall₂ commentUpd l.bottomComments l'.bottomComments

/-- Two lines that render identically: same text and metadata (including the
prefix cache), colours equal up to sort, comments pointwise `commentPaintEq`. -/
def linePaintEq (l l' : lineInfo) : Prop :=
  l.text = l'.text ∧ l.meta = l'.meta ∧ sortColours l.colours = sortColours l'.colours ∧
    List.Forall₂ commentPaintEq l.topComments l'.topComments ∧
    List.Forall₂ commentPaintEq l.bottomComments l'.bottomComments

/-- The expected render of a comment-free, colour-free document, gutter taken
from the (already computed) prefix cache. -/
def gutterRowsSpec (longest : Nat) : List lineInfo → String
  | [] => ""
  | l :: ls => writePfx l.meta.cachedPfx longest ++ l.text ++ "\n" ++ gutterRowsSpec longest ls

/-! ## Concrete documents used by counterexamples and witnesses -/

/-- A fresh one-line document whose two colour ranges are in bounds but
strictly nested: `(0,5)` then `(2,4)` on `"0123456789"`. -/
def docNested : Decorator :=
  ⟨[⟨"0123456789", [⟨0, 5, "A"⟩, ⟨2, 4, "B"⟩], ⟨1, "f", ""⟩, [], []⟩]⟩

/-- A fresh one-line document with two bottom comments at columns 0 and 5. -/
def docTwoBelow : Decorator :=
  ⟨[⟨"0123456789", [], ⟨1, "f", ""⟩, [], [⟨0, "a", []⟩, ⟨5, "b", []⟩]⟩]⟩

/-- A fresh one-line document with colours supplied out of order. -/
def docUnsorted : Decorator :=
  ⟨[⟨"abcde", [⟨2, 4, "X"⟩, ⟨0, 1, "Y"⟩], ⟨1, "f", ""⟩, [], []⟩]⟩

/-- A fresh two-line document with prefixes of different widths. -/
def docTwoLines : Decorator :=
  ⟨[⟨"x", [], ⟨1, "f", ""⟩, [], []⟩, ⟨"y", [], ⟨10, "long", ""⟩, [], []⟩]⟩

/-- A fresh one-line document with one in-bounds colour range. -/
def docOneColour : Decorator :=
  ⟨[⟨"ab", [⟨0, 1, "C"⟩], ⟨1, "f", ""⟩, [], []⟩]⟩

/-! ## Theorems -/

/-- C1 counterexample.  A document built only from successful
`AddLine`/`ColourLine` calls, every range satisfying
`0 ≤ From ≤ To ≤ length`, on which the render pass nevertheless fails:
the second range `(2,4)` is strictly nested in `(0,5)`, its clamped `From`
becomes `5 > 4 = To`, and Go panics slicing `text[5:4]`.  This refutes the
claim that render is total and that a fully-consumed range always
degenerates to painting zero characters. -/
theorem C1_render_panics_on_nested :
    AddLine ⟨[]⟩ "0123456789" ⟨1, "f", ""⟩ =
        some ⟨[⟨"0123456789", [], ⟨1, "f", ""⟩, [], []⟩]⟩ ∧
    ColourLine ⟨[⟨"0123456789", [], ⟨1, "f", ""⟩, [], []⟩]⟩ 0 ⟨0, 5, "A"⟩ =
        some ⟨[⟨"0123456789", [⟨0, 5, "A"⟩], ⟨1, "f", ""⟩, [], []⟩]⟩ ∧
    ColourLine ⟨[⟨"0123456789", [⟨0, 5, "A"⟩], ⟨1, "f", ""⟩, [], []⟩]⟩ 0 ⟨2, 4, "B"⟩ =
        some docNested ∧
    rangesWithinText docNested ∧
    DecoratorString docNested = none := by
  refine ⟨by decide, by decide, by decide, by decide, ?_⟩
  decide

/-- C2 counterexample.  Two bottom comments at columns 0 and 5: comment 0 is
revealed on row 2 (its text at column 0), but on the subsequent rows 3-5 the
scan starts past it (`k := commentsWritten`), so no `│` connector is drawn at
its column - column 0 of row 3 holds a space, refuting the claim that every
already-revealed annotation always gets a connector. -/
theorem C2_no_connector_after_reveal :
    ((writeBottomComments 0 [⟨0, "a", []⟩, ⟨5, "b", []⟩]).map Prod.fst).getD "" =
      " | │    │\n | v    │\n | a    │\n |      │\n |      v\n |      b\n" ∧
    charAtRow " | │    │\n | v    │\n | a    │\n |      │\n |      v\n |      b\n" 2 3 =
      some 'a' ∧
    charAtRow " | │    │\n | v    │\n | a    │\n |      │\n |      v\n |      b\n" 3 3 =
      some ' ' := by
  refine ⟨by decide, by decide, by decide⟩

/-- C4 counterexample.  Rendering is not state-preserving: on a fresh
document with colours supplied out of order, `String` memoizes the gutter
prefix into the line metadata and sorts the colour slice in place, so the
decorator after rendering differs from the one before. -/
theorem C4_render_mutates_state :
    (DecoratorString docUnsorted).isSome ∧
    (DecoratorString docUnsorted).map Prod.snd ≠ some docUnsorted := by
  refine ⟨by decide, by decide⟩

/-- C5 counterexample.  The gutter is the prefix RIGHT-padded (left
justified): on a two-line document, line 1 renders as
`"f @ 1     | x"`, not as the left-padded `"    f @ 1 | x"`
the claim describes. -/
theorem C5_gutter_is_right_padded :
    (DecoratorString docTwoLines).map Prod.fst =
      some "f @ 1     | x\nlong @ 10 | y\n" ∧
    "f @ 1     | x\nlong @ 10 | y\n" ≠
      leftPadPfxSpec "f @ 1" 9 ++ "x\n" ++ (leftPadPfxSpec "long @ 10" 9 ++ "y\n") := by
  refine ⟨by decide, by decide⟩

/-- Go slicing succeeds exactly on in-range indices. -/
theorem goSlice_eq_some (s : String) {lo hi : Int} (h0 : 0 ≤ lo) (h1 : lo ≤ hi)
    (h2 : hi ≤ (s.length : Int)) :
    goSlice s lo hi = some (String.mk ((s.toList.drop lo.toNat).take (hi - lo).toNat)) := by
  unfold goSlice
  exact if_pos ⟨h0, h1, h2⟩

/-- C7 (confirmed).  Painting any text of length at least 8 with the two
overlapping ranges `R1 = (0,5)` and `R2 = (3,8)`, supplied in that order,
wraps exactly the characters `[0,5)` in `R1`'s token and exactly the
characters `[5,8)` in `R2`'s token: the earlier-starting range wins every
contested character, the later range is clamped to start at 5. -/
theorem C7_overlap_earlier_range_wins (text : String) (c1 c2 : String)
    (h : 8 ≤ text.length) :
    writeColoured text [⟨0, 5, c1⟩, ⟨3, 8, c2⟩] =
      some (c1 ++ String.mk (text.toList.take 5) ++ NormalColour ++
              (c2 ++ String.mk ((text.toList.drop 5).take 3) ++ NormalColour ++
                String.mk (text.toList.drop 8)),
            [⟨0, 5, c1⟩, ⟨3, 8, c2⟩]) := by
  have hs : sortColours [⟨0, 5, c1⟩, ⟨3, 8, c2⟩] = [⟨0, 5, c1⟩, ⟨3, 8, c2⟩] := by
    simp [sortColours, List.insertionSort, List.orderedInsert]
  have hlen : text.length = text.data.length := rfl
  unfold writeColoured
  rw [hs]
  simp only [paintRanges]
  norm_num [goSlice]
  have h5 : 5 ≤ text.length := by omega
  have ht8 : 8 ≤ text.length := by omega
  simp only [if_pos h5, if_pos ht8]
  have htail : List.take ((text.length : Int) - 8).toNat (List.drop (Int.toNat 8) text.data) =
      List.drop 8 text.data := by
    rw [show ((text.length : Int) - 8).toNat = text.length - 8 by omega,
        show Int.toNat 8 = 8 from rfl]
    apply List.take_of_length_le
    rw [List.length_drop]
    omega
  by_cases hlt : 8 < text.length
  · simp only [if_pos hlt, Option.bind_some, Option.bind]
    norm_num [String.append_assoc, show ({ data := [] } : String) = "" from rfl, htail]
    rfl
  · have hq : text.length = 8 := by omega
    simp only [if_neg hlt, Option.bind_some, Option.bind]
    norm_num [String.append_assoc, show ({ data := [] } : String) = "" from rfl]
    rw [show List.drop 8 text.data = [] from List.drop_eq_nil_of_le (by omega)]
    rfl

/-- Witness for C7 at `"0123456789"` with the red and green tokens. -/
theorem C7_overlap_earlier_range_wins_witness :
    writeColoured "0123456789" [⟨0, 5, FgRed⟩, ⟨3, 8, FgGreen⟩] =
      some (FgRed ++ String.mk ("0123456789".toList.take 5) ++ NormalColour ++
              (FgGreen ++ String.mk (("0123456789".toList.drop 5).take 3) ++ NormalColour ++
                String.mk ("0123456789".toList.drop 8)),
            [⟨0, 5, FgRed⟩, ⟨3, 8, FgGreen⟩]) :=
  C7_overlap_earlier_range_wins "0123456789" FgRed FgGreen (by decide)

/-- Go `strings.ContainsAny(s, "\n\t\r")` holds exactly when `s` has a newline,
tab or carriage return. -/
theorem containsAny_ctl (s : String) :
    containsAny s "\n\t\r" = true ↔
      '\n' ∈ s.toList ∨ '\t' ∈ s.toList ∨ '\r' ∈ s.toList := by
  unfold containsAny
  rw [List.any_eq_true]
  constructor
  · rintro ⟨ch, hm, hc⟩
    have hmem : ch ∈ ("\n\t\r".toList) := by simpa using hc
    rw [show "\n\t\r".toList = ['\n', '\t', '\r'] from rfl] at hmem
    simp only [List.mem_cons, List.not_mem_nil, or_false] at hmem
    rcases hmem with rfl | rfl | rfl
    · exact Or.inl hm
    · exact Or.inr (Or.inl hm)
    · exact Or.inr (Or.inr hm)
  · rintro (hm | hm | hm) <;> exact ⟨_, hm, by simp⟩

/-- The map `updateAt` preserves the length. -/
theorem updateAt_length {α : Type} (l : List α) (i : Nat) (f : α → α) :
    (updateAt l i f).length = l.length := by
  induction l generalizing i with
  | nil => rfl
  | cons x xs ih => cases i <;> simp [updateAt, ih]

/-- The map `updateAt` leaves other positions unchanged. -/
theorem updateAt_getD_ne {α : Type} (l : List α) (i j : Nat) (f : α → α) (d : α)
    (h : j ≠ i) : (updateAt l i f).getD j d = l.getD j d := by
  induction l generalizing i j with
  | nil => rfl
  | cons x xs ih =>
    cases i with
    | zero => cases j with
      | zero => exact absurd rfl h
      | succ j => simp [updateAt]
    | succ i => cases j with
      | zero => simp [updateAt]
      | succ j => simpa [updateAt] using ih i j (by omega)

/-- The map `updateAt` applies `f` at position `i`. -/
theorem updateAt_getD_eq {α : Type} (l : List α) (i : Nat) (f : α → α) (d : α)
    (h : i < l.length) : (updateAt l i f).getD i d = f (l.getD i d) := by
  induction l generalizing i with
  | nil => simp at h
  | cons x xs ih =>
    cases i with
    | zero => simp [updateAt]
    | succ i => simpa [updateAt] using ih i (by simpa using h)

/-- Valid line indices resolve through `get?` to the `getD` value. -/
theorem lines_get?_eq_getD (d : Decorator) (ln : Int)
    (h0 : 0 ≤ ln) (h1 : ln < (d.lines.length : Int)) :
    d.lines.get? ln.toNat = some (d.lines.getD ln.toNat lineDefault) := by
  have hlt : ln.toNat < d.lines.length := by omega
  rw [List.get?_eq_getElem?, List.getElem?_eq_getElem hlt,
      List.getD_eq_getElem?_getD, List.getElem?_eq_getElem hlt]
  simp

/-- C9 (confirmed).  Every mutating operation is atomic: it either succeeds
and appends exactly the supplied record (all other state untouched), or it
returns an error, which in this functional embedding is `none` - the caller
keeps the previous decorator unchanged.  `AddTopComment` and
`AddBottomComment` fail if and only if the comment text contains a newline,
tab or carriage return, or the line index does not refer to an existing
line; `AddLine` fails exactly on control characters in the line;
`ColourLine`, `ColourTopComment` and `ColourBottomComment` fail exactly on
invalid indices. -/
theorem C9_mutators_atomic (d : Decorator) (ln cm at_ : Int) (s : String)
    (meta : LineMetadata) (col : LineColour) :
    (AddLine d s meta = none ↔
      ('\n' ∈ s.toList ∨ '\t' ∈ s.toList ∨ '\r' ∈ s.toList)) ∧
    (∀ d', AddLine d s meta = some d' →
      d'.lines = d.lines ++ [⟨s, [], meta, [], []⟩]) ∧
    (AddTopComment d ln at_ s = none ↔
      (('\n' ∈ s.toList ∨ '\t' ∈ s.toList ∨ '\r' ∈ s.toList) ∨
        ¬(0 ≤ ln ∧ ln < (d.lines.length : Int)))) ∧
    (∀ d', AddTopComment d ln at_ s = some d' →
      d'.lines.length = d.lines.length ∧
      (∀ i, i ≠ ln.toNat → d'.lines.getD i lineDefault = d.lines.getD i lineDefault) ∧
      d'.lines.getD ln.toNat lineDefault =
        { d.lines.getD ln.toNat lineDefault with
            topComments :=
              (d.lines.getD ln.toNat lineDefault).topComments ++ [⟨at_, s, []⟩] }) ∧
    (AddBottomComment d ln at_ s = none ↔
      (('\n' ∈ s.toList ∨ '\t' ∈ s.toList ∨ '\r' ∈ s.toList) ∨
        ¬(0 ≤ ln ∧ ln < (d.lines.length : Int)))) ∧
    (∀ d', AddBottomComment d ln at_ s = some d' →
      d'.lines.length = d.lines.length ∧
      (∀ i, i ≠ ln.toNat → d'.lines.getD i lineDefault = d.lines.getD i lineDefault) ∧
      d'.lines.getD ln.toNat lineDefault =
        { d.lines.getD ln.toNat lineDefault with
            bottomComments :=
              (d.lines.getD ln.toNat lineDefault).bottomComments ++ [⟨at_, s, []⟩] }) ∧
    (ColourLine d ln col = none ↔ ¬(0 ≤ ln ∧ ln < (d.lines.length : Int))) ∧
    (∀ d', ColourLine d ln col = some d' →
      d'.lines.length = d.lines.length ∧
      (∀ i, i ≠ ln.toNat → d'.lines.getD i lineDefault = d.lines.getD i lineDefault) ∧
      d'.lines.getD ln.toNat lineDefault =
        { d.lines.getD ln.toNat lineDefault with
            colours := (d.lines.getD ln.toNat lineDefault).colours ++ [col] }) ∧
    (ColourTopComment d ln cm col = none ↔
      (¬(0 ≤ ln ∧ ln < (d.lines.length : Int)) ∨
        ¬(0 ≤ cm ∧
          cm < (((d.lines.getD ln.toNat lineDefault).topComments.length : Nat) : Int)))) ∧
    (∀ d', ColourTopComment d ln cm col = some d' →
      d'.lines.length = d.lines.length ∧
      (∀ i, i ≠ ln.toNat → d'.lines.getD i lineDefault = d.lines.getD i lineDefault) ∧
      d'.lines.getD ln.toNat lineDefault =
        { d.lines.getD ln.toNat lineDefault with
            topComments := updateAt (d.lines.getD ln.toNat lineDefault).topComments
              cm.toNat fun c => { c with colours := c.colours ++ [col] } }) ∧
    (ColourBottomComment d ln cm col = none ↔
      (¬(0 ≤ ln ∧ ln < (d.lines.length : Int)) ∨
        ¬(0 ≤ cm ∧
          cm < (((d.lines.getD ln.toNat lineDefault).bottomComments.length : Nat) : Int)))) ∧
    (∀ d', ColourBottomComment d ln cm col = some d' →
      d'.lines.length = d.lines.length ∧
      (∀ i, i ≠ ln.toNat → d'.lines.getD i lineDefault = d.lines.getD i lineDefault) ∧
      d'.lines.getD ln.toNat lineDefault =
        { d.lines.getD ln.toNat lineDefault with
            bottomComments := updateAt (d.lines.getD ln.toNat lineDefault).bottomComments
              cm.toNat fun c => { c with colours := c.colours ++ [col] } }) := by
  refine ⟨?_, ?_, ?_, ?_, ?_, ?_, ?_, ?_, ?_, ?_, ?_, ?_⟩
  · unfold AddLine
    by_cases hc : containsAny s "\n\t\r"
    · rw [if_pos hc]
      exact iff_of_true rfl ((containsAny_ctl s).mp hc)
    · rw [if_neg hc]
      constructor
      · intro h
        cases h
      · intro h
        exact absurd ((containsAny_ctl s).mpr h) hc
  · intro d' hd'
    unfold AddLine at hd'
    by_cases hc : containsAny s "\n\t\r"
    · rw [if_pos hc] at hd'
      cases hd'
    · rw [if_neg hc] at hd'
      injection hd' with h
      subst h
      rfl
  · unfold AddTopComment
    by_cases hc : containsAny s "\n\t\r"
    · rw [if_pos hc]
      exact iff_of_true rfl (Or.inl ((containsAny_ctl s).mp hc))
    · rw [if_neg hc]
      by_cases hb : ln < 0 ∨ ln ≥ (d.lines.length : Int)
      · rw [if_pos hb]
        exact iff_of_true rfl (Or.inr (by omega))
      · rw [if_neg hb]
        constructor
        · intro h
          cases h
        · rintro (h | h)
          · exact absurd ((containsAny_ctl s).mpr h) hc
          · exact absurd h (by omega)
  · intro d' hd'
    unfold AddTopComment at hd'
    by_cases hc : containsAny s "\n\t\r"
    · rw [if_pos hc] at hd'
      cases hd'
    by_cases hb : ln < 0 ∨ ln ≥ (d.lines.length : Int)
    · rw [if_neg hc, if_pos hb] at hd'
      cases hd'
    rw [if_neg hc, if_neg hb] at hd'
    injection hd' with h
    subst h
    have hlt : ln.toNat < d.lines.length := by omega
    exact ⟨updateAt_length _ _ _,
      fun i hi => updateAt_getD_ne _ _ _ _ _ hi,
      updateAt_getD_eq _ _ _ _ hlt⟩
  · unfold AddBottomComment
    by_cases hc : containsAny s "\n\t\r"
    · rw [if_pos hc]
      exact iff_of_true rfl (Or.inl ((containsAny_ctl s).mp hc))
    · rw [if_neg hc]
      by_cases hb : ln < 0 ∨ ln ≥ (d.lines.length : Int)
      · rw [if_pos hb]
        exact iff_of_true rfl (Or.inr (by omega))
      · rw [if_neg hb]
        constructor
        · intro h
          cases h
        · rintro (h | h)
          · exact absurd ((containsAny_ctl s).mpr h) hc
          · exact absurd h (by omega)
  · intro d' hd'
    unfold AddBottomComment at hd'
    by_cases hc : containsAny s "\n\t\r"
    · rw [if_pos hc] at hd'
      cases hd'
    by_cases hb : ln < 0 ∨ ln ≥ (d.lines.length : Int)
    · rw [if_neg hc, if_pos hb] at hd'
      cases hd'
    rw [if_neg hc, if_neg hb] at hd'
    injection hd' with h
    subst h
    have hlt : ln.toNat < d.lines.length := by omega
    exact ⟨updateAt_length _ _ _,
      fun i hi => updateAt_getD_ne _ _ _ _ _ hi,
      updateAt_getD_eq _ _ _ _ hlt⟩
  · unfold ColourLine
    by_cases hb : ln < 0 ∨ ln ≥ (d.lines.length : Int)
    · rw [if_pos hb]
      exact iff_of_true rfl (by omega)
    · rw [if_neg hb]
      constructor
      · intro h
        cases h
      · intro h
        exact absurd h (by omega)
  · intro d' hd'
    unfold ColourLine at hd'
    by_cases hb : ln < 0 ∨ ln ≥ (d.lines.length : Int)
    · rw [if_pos hb] at hd'
      cases hd'
    rw [if_neg hb] at hd'
    injection hd' with h
    subst h
    have hlt : ln.toNat < d.lines.length := by omega
    exact ⟨updateAt_length _ _ _,
      fun i hi => updateAt_getD_ne _ _ _ _ _ hi,
      updateAt_getD_eq _ _ _ _ hlt⟩
  · unfold ColourTopComment
    by_cases hb : ln < 0 ∨ ln ≥ (d.lines.length : Int)
    · rw [if_pos hb]
      exact iff_of_true rfl (Or.inl (by omega))
    · rw [if_neg hb, lines_get?_eq_getD d ln (by omega) (by omega)]
      simp only [Option.map_some', Option.getD_some]
      by_cases hcm : cm < 0 ∨
          cm ≥ (((d.lines.getD ln.toNat lineDefault).topComments.length : Nat) : Int)
      · rw [if_pos hcm]
        exact iff_of_true rfl (Or.inr (by omega))
      · rw [if_neg hcm]
        constructor
        · intro h
          cases h
        · rintro (h | h)
          · exact absurd h (by omega)
          · exact absurd h (by omega)
  · intro d' hd'
    unfold ColourTopComment at hd'
    by_cases hb : ln < 0 ∨ ln ≥ (d.lines.length : Int)
    · rw [if_pos hb] at hd'
      cases hd'
    rw [if_neg hb, lines_get?_eq_getD d ln (by omega) (by omega)] at hd'
    simp only [Option.map_some', Option.getD_some] at hd'
    by_cases hcm : cm < 0 ∨
        cm ≥ (((d.lines.getD ln.toNat lineDefault).topComments.length : Nat) : Int)
    · rw [if_pos hcm] at hd'
      cases hd'
    rw [if_neg hcm] at hd'
    injection hd' with h
    subst h
    have hlt : ln.toNat < d.lines.length := by omega
    exact ⟨updateAt_length _ _ _,
      fun i hi => updateAt_getD_ne _ _ _ _ _ hi,
      updateAt_getD_eq _ _ _ _ hlt⟩
  · unfold ColourBottomComment
    by_cases hb : ln < 0 ∨ ln ≥ (d.lines.length : Int)
    · rw [if_pos hb]
      exact iff_of_true rfl (Or.inl (by omega))
    · rw [if_neg hb, lines_get?_eq_getD d ln (by omega) (by omega)]
      simp only [Option.map_some', Option.getD_some]
      by_cases hcm : cm < 0 ∨
          cm ≥ (((d.lines.getD ln.toNat lineDefault).bottomComments.length : Nat) : Int)
      · rw [if_pos hcm]
        exact iff_of_true rfl (Or.inr (by omega))
      · rw [if_neg hcm]
        constructor
        · intro h
          cases h
        · rintro (h | h)
          · exact absurd h (by omega)
          · exact absurd h (by omega)
  · intro d' hd'
    unfold ColourBottomComment at hd'
    by_cases hb : ln < 0 ∨ ln ≥ (d.lines.length : Int)
    · rw [if_pos hb] at hd'
      cases hd'
    rw [if_neg hb, lines_get?_eq_getD d ln (by omega) (by omega)] at hd'
    simp only [Option.map_some', Option.getD_some] at hd'
    by_cases hcm : cm < 0 ∨
        cm ≥ (((d.lines.getD ln.toNat lineDefault).bottomComments.length : Nat) : Int)
    · rw [if_pos hcm] at hd'
      cases hd'
    rw [if_neg hcm] at hd'
    injection hd' with h
    subst h
    have hlt : ln.toNat < d.lines.length := by omega
    exact ⟨updateAt_length _ _ _,
      fun i hi => updateAt_getD_ne _ _ _ _ _ hi,
      updateAt_getD_eq _ _ _ _ hlt⟩

/-- Witness for C9: a rejected tab-containing comment, and a successful
append on a concrete one-line decorator. -/
theorem C9_mutators_atomic_witness :
    AddTopComment docOneColour 0 1 "a\tb" = none ∧
    (⟨[⟨"ab", [⟨0, 1, "C"⟩], ⟨1, "f", ""⟩, [⟨5, "ok", []⟩], []⟩]⟩ : Decorator).lines.length =
      docOneColour.lines.length := by
  constructor
  · exact (C9_mutators_atomic docOneColour 0 0 1 "a\tb" ⟨7, "g", ""⟩ ⟨0, 1, "Z"⟩).2.2.1.mpr
      (Or.inl (by decide))
  · exact ((C9_mutators_atomic docOneColour 0 0 5 "ok" ⟨7, "g", ""⟩ ⟨0, 1, "Z"⟩).2.2.2.1
      ⟨[⟨"ab", [⟨0, 1, "C"⟩], ⟨1, "f", ""⟩, [⟨5, "ok", []⟩], []⟩]⟩ (by decide)).1

theorem bottomRowBody_cons (mod : Nat) (c : commentInfo) (cs : List commentInfo) :
    bottomRowBody mod (c :: cs) =
      if 0 > c.at_ then some (bottomScanRest cs 0, none, c :: cs)
      else if mod = 0 then
        some (writePadding c.at_ ++ "│" ++ bottomScanRest cs (c.at_ + 1), none, c :: cs)
      else if mod = 1 then
        some (writePadding c.at_ ++ "v" ++ bottomScanRest cs (c.at_ + 1), none, c :: cs)
      else
        (writeColoured c.text c.colours).bind fun p =>
          some (writePadding c.at_ ++ p.1 ++ bottomScanRest cs (c.at_ + (c.text.length : Int)),
                some { c with colours := p.2 }, cs) := rfl

theorem bottomLoop_succ (g : String) (fuel j : Nat) (doneRev todo : List commentInfo) :
    bottomLoop g (fuel + 1) j doneRev todo =
      (bottomRowBody (j % 3) todo).bind fun r =>
        (bottomLoop g fuel (j + 1)
            (match r.2.1 with | some c => c :: doneRev | none => doneRev) r.2.2).bind
          fun q => some (g ++ r.1 ++ "\n" ++ q.1, q.2) := rfl

theorem writeColoured_nil (t : String) : writeColoured t [] = some (t, []) := by
  unfold writeColoured sortColours
  simp only [List.insertionSort, paintRanges]
  by_cases h : (0 : Int) < (t.length : Int)
  · rw [if_pos h, goSlice_eq_some t (by omega) (by omega) (by omega)]
    simp only [Option.map_some', Option.some.injEq, Prod.mk.injEq, and_true]
    show String.mk ((t.toList.drop (0 : Int).toNat).take ((t.length : Int) - 0).toNat) = t
    rw [show ((0 : Int)).toNat = 0 from rfl]
    rw [List.drop_zero, show ((t.length : Int) - 0).toNat = t.length by omega]
    have ht : List.take t.length t.toList = t.toList := List.take_of_length_le (le_of_eq rfl)
    rw [ht]
    rfl
  · rw [if_neg h]
    simp only [Option.map_some', Option.some.injEq, Prod.mk.injEq, and_true]
    have hl : t.length = 0 := by omega
    have hd : t.data = [] := List.length_eq_zero.mp hl
    show "" = t
    cases t
    simp_all

theorem commentInfo_colours_eta (c : commentInfo) (h : c.colours = []) :
    ({ c with colours := ([] : List LineColour) } : commentInfo) = c := by
  cases c
  simp_all

theorem bottomLoop_spec (g : String) (j : Nat) (doneRev todo : List commentInfo)
    (hj : j % 3 = 0)
    (hnn : ∀ c ∈ todo, 0 ≤ c.at_)
    (hnc : ∀ c ∈ todo, c.colours = []) :
    bottomLoop g (3 * todo.length) j doneRev todo =
      some (belowRowsSpec g todo, doneRev.reverse ++ todo) := by
  induction todo generalizing j doneRev with
  | nil => simp [bottomLoop, belowRowsSpec]
  | cons c cs ih =>
    have hc0 : ¬ (0 : Int) > c.at_ := by
      have := hnn c (by simp)
      omega
    have hcc : c.colours = [] := hnc c (by simp)
    have hfuel : 3 * (c :: cs).length = (3 * cs.length + 1 + 1) + 1 := by
      simp [List.length_cons]
      ring
    have h1 : (j + 1) % 3 = 1 := by omega
    have h2 : (j + 1 + 1) % 3 = 2 := by omega
    have h3 : (j + 1 + 1 + 1) % 3 = 0 := by omega
    rw [hfuel, bottomLoop_succ, hj, bottomRowBody_cons, if_neg hc0, if_pos rfl]
    simp only [Option.some_bind]
    rw [bottomLoop_succ, h1, bottomRowBody_cons, if_neg hc0,
        if_neg (show ¬ (1 : Nat) = 0 by omega), if_pos rfl]
    simp only [Option.some_bind]
    rw [bottomLoop_succ, h2, bottomRowBody_cons, if_neg hc0,
        if_neg (show ¬ (2 : Nat) = 0 by omega), if_neg (show ¬ (2 : Nat) = 1 by omega)]
    rw [hcc, writeColoured_nil]
    simp only [Option.some_bind]
    rw [commentInfo_colours_eta c hcc]
    rw [ih (j + 1 + 1 + 1) (c :: doneRev) h3 (fun x hx => hnn x (by simp [hx]))
        (fun x hx => hnc x (by simp [hx]))]
    simp only [Option.some_bind, belowRowsSpec, List.reverse_cons, Option.some.injEq,
      Prod.mk.injEq]
    constructor
    · simp [String.append_assoc]
    · simp

/-- Row counting distributes over append. -/
theorem countRows_append (a b : String) :
    countRows (a ++ b) = countRows a + countRows b := by
  unfold countRows
  show ((a ++ b).data.count '\n') = a.data.count '\n' + b.data.count '\n'
  rw [String.data_append, List.count_append]

/-- Padding contains no newline. -/
theorem countRows_writePadding (n : Int) : countRows (writePadding n) = 0 := by
  unfold countRows writePadding
  show (List.replicate n.toNat ' ').count '\n' = 0
  rw [List.count_replicate]
  simp

/-- The comment-row gutter contains no newline. -/
theorem countRows_writePfx (pfx : String) (longest : Nat)
    (h : countRows pfx = 0) : countRows (writePfx pfx longest) = 0 := by
  unfold writePfx
  rw [countRows_append, countRows_append, h, countRows_writePadding]
  rfl

/-- Connector tails contain no newline. -/
theorem countRows_bottomScanRest (cs : List commentInfo) (cursor : Int) :
    countRows (bottomScanRest cs cursor) = 0 := by
  induction cs generalizing cursor with
  | nil => rfl
  | cons c cs ih =>
    unfold bottomScanRest
    by_cases h : cursor > c.at_
    · rw [if_pos h]
      exact ih cursor
    · rw [if_neg h, countRows_append, countRows_append, countRows_writePadding, ih]
      rfl

/-- The below block has exactly three rows per annotation. -/
theorem countRows_belowRowsSpec (g : String) (comments : List commentInfo)
    (hg : countRows g = 0) (htx : ∀ c ∈ comments, '\n' ∉ c.text.toList) :
    countRows (belowRowsSpec g comments) = 3 * comments.length := by
  induction comments with
  | nil => rfl
  | cons c cs ih =>
    have htc : countRows c.text = 0 := by
      unfold countRows
      exact List.count_eq_zero.mpr (htx c (by simp))
    unfold belowRowsSpec
    have hnl : countRows "\n" = 1 := rfl
    have hbar : countRows "│" = 0 := rfl
    have hv : countRows "v" = 0 := rfl
    simp only [countRows_append, hg, countRows_writePadding, countRows_bottomScanRest,
      htc, hnl, hbar, hv, ih (fun x hx => htx x (by simp [hx])), List.length_cons]
    ring

/-- C6 (confirmed).  For a line with `N ≥ 0` uncoloured below-annotations at
strictly increasing non-negative columns, the below pass emits exactly `3N`
newline-terminated rows (zero rows when `N = 0`), laid out as
`belowRowsSpec`: annotation `i` owns rows `3i` (lead connector `│` at its
column), `3i+1` (arrow `v` at its column) and `3i+2` (its text starting
exactly at its column); each row then carries only connectors of later
annotations, placed at or after the cursor - past the revealed text on the
reveal row - so no connector character lands inside any annotation's text,
and each annotation's text is emitted exactly once. -/
theorem C6_below_layout (longest : Nat) (comments : List commentInfo)
    (_hinc : comments.Pairwise fun a b => a.at_ < b.at_)
    (hnn : ∀ c ∈ comments, 0 ≤ c.at_)
    (hnc : ∀ c ∈ comments, c.colours = [])
    (htx : ∀ c ∈ comments, '\n' ∉ c.text.toList) :
    writeBottomComments longest comments =
      some (belowRowsSpec (writePfx "" longest) comments, comments) ∧
    countRows (belowRowsSpec (writePfx "" longest) comments) = 3 * comments.length := by
  constructor
  · exact bottomLoop_spec _ 0 [] comments rfl hnn hnc
  · refine countRows_belowRowsSpec _ _ ?_ htx
    exact countRows_writePfx "" longest rfl

/-- Witness for C6: the three test annotations at columns 0, 5, 9. -/
theorem C6_below_layout_witness :
    writeBottomComments 0 [⟨0, "abc", []⟩, ⟨5, "123lolol", []⟩, ⟨9, "doe ray me", []⟩] =
      some (belowRowsSpec (writePfx "" 0)
              [⟨0, "abc", []⟩, ⟨5, "123lolol", []⟩, ⟨9, "doe ray me", []⟩],
            [⟨0, "abc", []⟩, ⟨5, "123lolol", []⟩, ⟨9, "doe ray me", []⟩]) ∧
    countRows (belowRowsSpec (writePfx "" 0)
        [⟨0, "abc", []⟩, ⟨5, "123lolol", []⟩, ⟨9, "doe ray me", []⟩]) = 3 * 3 :=
  C6_below_layout 0 [⟨0, "abc", []⟩, ⟨5, "123lolol", []⟩, ⟨9, "doe ray me", []⟩]
    (by decide) (by decide) (by decide) (by decide)

/-- C2 as amended.  In below-side row construction an already-revealed
annotation is skipped on every later row (the scan starts at index
`revealed`): the block for `c :: cs` is `c`'s three rows followed by exactly
the block that `cs` alone would produce - the revealed annotation
contributes no connector (nor anything else) to any subsequent row. -/
theorem C2_below_rows_drop_revealed (longest : Nat) (c : commentInfo)
    (cs : List commentInfo)
    (hnn : ∀ x ∈ c :: cs, 0 ≤ x.at_)
    (hnc : ∀ x ∈ c :: cs, x.colours = []) :
    writeBottomComments longest (c :: cs) =
      some (belowRowsSpec (writePfx "" longest) (c :: cs), c :: cs) ∧
    writeBottomComments longest cs =
      some (belowRowsSpec (writePfx "" longest) cs, cs) ∧
    belowRowsSpec (writePfx "" longest) (c :: cs) =
      writePfx "" longest ++ writePadding c.at_ ++ "│" ++
        bottomScanRest cs (c.at_ + 1) ++ "\n" ++
      writePfx "" longest ++ writePadding c.at_ ++ "v" ++
        bottomScanRest cs (c.at_ + 1) ++ "\n" ++
      writePfx "" longest ++ writePadding c.at_ ++ c.text ++
        bottomScanRest cs (c.at_ + (c.text.length : Int)) ++ "\n" ++
      belowRowsSpec (writePfx "" longest) cs := by
  refine ⟨bottomLoop_spec _ 0 [] _ rfl hnn hnc,
    bottomLoop_spec _ 0 [] _ rfl (fun x hx => hnn x (by simp [hx]))
      (fun x hx => hnc x (by simp [hx])), ?_⟩
  have hb : belowRowsSpec (writePfx "" longest) (c :: cs) =
      writePfx "" longest ++ writePadding c.at_ ++ "│" ++
        bottomScanRest cs (c.at_ + 1) ++ "\n" ++
      (writePfx "" longest ++ writePadding c.at_ ++ "v" ++
        bottomScanRest cs (c.at_ + 1) ++ "\n" ++
      (writePfx "" longest ++ writePadding c.at_ ++ c.text ++
        bottomScanRest cs (c.at_ + (c.text.length : Int)) ++ "\n" ++
      belowRowsSpec (writePfx "" longest) cs)) := rfl
  rw [hb]
  simp [String.append_assoc]

/-- Witness for C2's amended statement: columns 0 and 5. -/
theorem C2_below_rows_drop_revealed_witness :
    writeBottomComments 0 [⟨0, "a", []⟩, ⟨5, "b", []⟩] =
      some (belowRowsSpec (writePfx "" 0) [⟨0, "a", []⟩, ⟨5, "b", []⟩],
            [⟨0, "a", []⟩, ⟨5, "b", []⟩]) ∧
    writeBottomComments 0 [⟨5, "b", []⟩] =
      some (belowRowsSpec (writePfx "" 0) [⟨5, "b", []⟩], [⟨5, "b", []⟩]) ∧
    belowRowsSpec (writePfx "" 0) [⟨0, "a", []⟩, ⟨5, "b", []⟩] =
      writePfx "" 0 ++ writePadding 0 ++ "│" ++
        bottomScanRest [⟨5, "b", []⟩] (0 + 1) ++ "\n" ++
      writePfx "" 0 ++ writePadding 0 ++ "v" ++
        bottomScanRest [⟨5, "b", []⟩] (0 + 1) ++ "\n" ++
      writePfx "" 0 ++ writePadding 0 ++ "a" ++
        bottomScanRest [⟨5, "b", []⟩] (0 + (("a" : String).length : Int)) ++ "\n" ++
      belowRowsSpec (writePfx "" 0) [⟨5, "b", []⟩] :=
  C2_below_rows_drop_revealed 0 ⟨0, "a", []⟩ [⟨5, "b", []⟩] (by decide) (by decide)

/-- C10 (confirmed).  An annotation column at or beyond the line's text
length renders without any indexing error: the bottom rows are padded with
spaces out to that column before the connector or text is emitted (the
column is never compared against the line text at all). -/
theorem C10_column_beyond_text (t : String) (cpos : Int) (txt : String)
    (hc : (t.length : Int) ≤ cpos) :
    DecoratorString ⟨[⟨t, [], ⟨1, "f", ""⟩, [], [⟨cpos, txt, []⟩]⟩]⟩ =
      some (writePfx "f @ 1" 5 ++ t ++ "\n" ++
              belowRowsSpec (writePfx "" 5) [⟨cpos, txt, []⟩],
            ⟨[⟨t, [], ⟨1, "f", "f @ 1"⟩, [], [⟨cpos, txt, []⟩]⟩]⟩) ∧
    belowRowsSpec (writePfx "" 5) [⟨cpos, txt, []⟩] =
      writePfx "" 5 ++ writePadding cpos ++ "│" ++ "\n" ++
      (writePfx "" 5 ++ writePadding cpos ++ "v" ++ "\n" ++
      (writePfx "" 5 ++ writePadding cpos ++ txt ++ "\n")) := by
  have h0 : (0 : Int) ≤ cpos := le_trans (by positivity) hc
  constructor
  · unfold DecoratorString
    simp only [List.map_cons, List.map_nil]
    rw [show generatePfx ⟨1, "f", ""⟩ = ⟨1, "f", "f @ 1"⟩ from by decide]
    rw [show longestPfx [⟨t, [], ⟨1, "f", "f @ 1"⟩, [], [⟨cpos, txt, []⟩]⟩] = 5 from rfl]
    unfold renderLines renderLine
    rw [show writeTopComments 5 [] = some ("", []) from rfl]
    rw [writeColoured_nil]
    unfold writeBottomComments
    dsimp only
    rw [bottomLoop_spec (writePfx "" 5) 0 [] [⟨cpos, txt, []⟩] rfl
        (by intro x hx; simp at hx; subst hx; exact h0)
        (by intro x hx; simp at hx; subst hx; rfl)]
    simp only [Option.some_bind, List.reverse_nil, List.nil_append]
    unfold renderLines
    simp [String.append_assoc]
  · have hb : belowRowsSpec (writePfx "" 5) [⟨cpos, txt, []⟩] =
        writePfx "" 5 ++ writePadding cpos ++ "│" ++ bottomScanRest [] (cpos + 1) ++ "\n" ++
        (writePfx "" 5 ++ writePadding cpos ++ "v" ++ bottomScanRest [] (cpos + 1) ++ "\n" ++
        (writePfx "" 5 ++ writePadding cpos ++ txt ++
            bottomScanRest [] (cpos + (txt.length : Int)) ++ "\n" ++
          belowRowsSpec (writePfx "" 5) [])) := rfl
    rw [hb]
    show _ = _
    simp [String.append_assoc, bottomScanRest, belowRowsSpec]

/-- Witness for C10: column 5 on a two-character line. -/
theorem C10_column_beyond_text_witness :
    DecoratorString ⟨[⟨"ab", [], ⟨1, "f", ""⟩, [], [⟨5, "hi", []⟩]⟩]⟩ =
      some (writePfx "f @ 1" 5 ++ "ab" ++ "\n" ++
              belowRowsSpec (writePfx "" 5) [⟨5, "hi", []⟩],
            ⟨[⟨"ab", [], ⟨1, "f", "f @ 1"⟩, [], [⟨5, "hi", []⟩]⟩]⟩) ∧
    belowRowsSpec (writePfx "" 5) [⟨5, "hi", []⟩] =
      writePfx "" 5 ++ writePadding 5 ++ "│" ++ "\n" ++
      (writePfx "" 5 ++ writePadding 5 ++ "v" ++ "\n" ++
      (writePfx "" 5 ++ writePadding 5 ++ "hi" ++ "\n")) :=
  C10_column_beyond_text "ab" 5 "hi" (by decide)

instance : IsTotal LineColour fun a b => a.From ≤ b.From :=
  ⟨fun a b => Int.le_total a.From b.From⟩

instance : IsTrans LineColour fun a b => a.From ≤ b.From :=
  ⟨fun _ _ _ hab hbc => le_trans hab hbc⟩

/-- The in-place sort permutes the colour list. -/
theorem sortColours_perm (l : List LineColour) : (sortColours l).Perm l :=
  List.perm_insertionSort _ l

/-- The in-place sort sorts by `From`. -/
theorem sortColours_sorted (l : List LineColour) :
    (sortColours l).Sorted fun a b => a.From ≤ b.From :=
  List.sorted_insertionSort _ l

/-- Sorting an already-sorted colour list is the identity; in particular the
in-place sort is idempotent. -/
theorem sortColours_idem (l : List LineColour) :
    sortColours (sortColours l) = sortColours l :=
  List.Sorted.insertionSort_eq (sortColours_sorted l)

/-- Sorting preserves `colourOK`. -/
theorem colourOK_sortColours (t : String) (cs : List LineColour) (h : colourOK t cs) :
    colourOK t (sortColours cs) := by
  obtain ⟨hb, hp⟩ := h
  constructor
  · intro r hr
    exact hb r ((sortColours_perm cs).mem_iff.mp hr)
  · rw [sortColours_idem]
    exact hp

/-- Sorting a comment twice equals sorting it once. -/
theorem sortComment_idem (c : commentInfo) : sortComment (sortComment c) = sortComment c := by
  unfold sortComment
  simp [sortColours_idem]

/-- One unfolding step of the paint loop. -/
theorem paintRanges_cons (text : String) (start : Int) (c : LineColour)
    (rest : List LineColour) :
    paintRanges text start (c :: rest) =
      (goSlice text start (if start > c.From then start else c.From)).bind fun gap =>
      (goSlice text (if start > c.From then start else c.From) c.To).bind fun painted =>
      (paintRanges text c.To rest).bind fun tail =>
      some (gap ++ c.Colour ++ painted ++ NormalColour ++ tail) := rfl

/-- The paint loop succeeds when every range is in bounds, the `To` endpoints
are non-decreasing along the list, and the cursor starts at or before every
range's end. -/
theorem paintRanges_isSome (text : String) (s : List LineColour) :
    ∀ (start : Int),
    (∀ r ∈ s, 0 ≤ r.From ∧ r.From ≤ r.To ∧ r.To ≤ (text.length : Int)) →
    s.Pairwise (fun a b => a.To ≤ b.To) →
    0 ≤ start → start ≤ (text.length : Int) →
    (∀ c ∈ s, start ≤ c.To) →
    (paintRanges text start s).isSome := by
  induction s with
  | nil =>
    intro start _ _ h0 h1 _
    unfold paintRanges
    by_cases h : start < (text.length : Int)
    · rw [if_pos h, goSlice_eq_some text h0 (by omega) (by omega)]
      rfl
    · rw [if_neg h]
      rfl
  | cons c cs ih =>
    intro start hb hp h0 h1 hst
    obtain ⟨hcF, hcFT, hcT⟩ := hb c (by simp)
    have hstc : start ≤ c.To := hst c (by simp)
    have hclamp0 : (0 : Int) ≤ (if start > c.From then start else c.From) := by
      split <;> omega
    have hclamp1 : start ≤ (if start > c.From then start else c.From) := by
      split <;> omega
    have hclamp2 : (if start > c.From then start else c.From) ≤ c.To := by
      split <;> omega
    rw [paintRanges_cons,
        goSlice_eq_some text h0 hclamp1 (by omega),
        goSlice_eq_some text hclamp0 hclamp2 (by omega)]
    have htail := ih c.To (fun r hr => hb r (by simp [hr]))
      hp.of_cons (by omega) (by omega)
      (fun x hx => (List.pairwise_cons.mp hp).1 x hx)
    obtain ⟨v, hv⟩ := Option.isSome_iff_exists.mp htail
    rw [Option.some_bind, Option.some_bind, hv]
    rfl

/-- Projection of a successful `writeColoured`: the stored list is the sorted
colour list. -/
theorem writeColoured_snd (t : String) (cs : List LineColour) (p : String × List LineColour)
    (h : writeColoured t cs = some p) : p.2 = sortColours cs := by
  unfold writeColoured at h
  rcases hq : paintRanges t 0 (sortColours cs) with _ | q <;> rw [hq] at h
  · cases h
  · simp only [Option.map_some', Option.some.injEq] at h
    rw [← h]

/-- Painting succeeds on any `colourOK` list. -/
theorem writeColoured_isSome (t : String) (cs : List LineColour) (h : colourOK t cs) :
    (writeColoured t cs).isSome := by
  obtain ⟨hb, hp⟩ := colourOK_sortColours t cs h
  rw [sortColours_idem] at hp
  have hs := paintRanges_isSome t (sortColours cs) 0 hb hp (le_refl 0)
    (by positivity) (fun c hc => le_trans (hb c hc).1 (hb c hc).2.1)
  obtain ⟨v, hv⟩ := Option.isSome_iff_exists.mp hs
  unfold writeColoured
  rw [hv]
  rfl

/-- A bind is defined when the first component is and the continuation is on
its value. -/
theorem bind_isSome_of {α β : Type} {o : Option α} {f : α → Option β}
    (h : ∃ a, o = some a ∧ (f a).isSome) : (o.bind f).isSome := by
  obtain ⟨a, ha, hf⟩ := h
  rw [ha, Option.some_bind]
  exact hf

/-- The empty row body. -/
theorem bottomRowBody_nil (mod : Nat) : bottomRowBody mod [] = some ("", none, []) := rfl

/-- The below loop succeeds whenever every pending comment's colours are
`colourOK`. -/
theorem bottomLoop_isSome (g : String) (fuel : Nat) :
    ∀ (j : Nat) (doneRev todo : List commentInfo),
    (∀ c ∈ todo, colourOK c.text c.colours) →
    (bottomLoop g fuel j doneRev todo).isSome := by
  induction fuel with
  | zero =>
    intro j dr td _
    rfl
  | succ fuel ih =>
    intro j dr td h
    rw [bottomLoop_succ]
    apply bind_isSome_of
    cases td with
    | nil =>
      refine ⟨("", none, []), rfl, ?_⟩
      apply bind_isSome_of
      obtain ⟨q, hq⟩ := Option.isSome_iff_exists.mp
        (ih (j + 1) dr [] (by intro c hc; cases hc))
      exact ⟨q, hq, rfl⟩
    | cons c cs =>
      by_cases h0 : (0 : Int) > c.at_
      · refine ⟨(bottomScanRest cs 0, none, c :: cs), ?_, ?_⟩
        · rw [bottomRowBody_cons, if_pos h0]
        · apply bind_isSome_of
          obtain ⟨q, hq⟩ := Option.isSome_iff_exists.mp (ih (j + 1) dr (c :: cs) h)
          exact ⟨q, hq, rfl⟩
      · by_cases hm0 : j % 3 = 0
        · refine ⟨(writePadding c.at_ ++ "│" ++ bottomScanRest cs (c.at_ + 1), none, c :: cs),
            ?_, ?_⟩
          · rw [bottomRowBody_cons, if_neg h0, if_pos hm0]
          · apply bind_isSome_of
            obtain ⟨q, hq⟩ := Option.isSome_iff_exists.mp (ih (j + 1) dr (c :: cs) h)
            exact ⟨q, hq, rfl⟩
        · by_cases hm1 : j % 3 = 1
          · refine ⟨(writePadding c.at_ ++ "v" ++ bottomScanRest cs (c.at_ + 1), none, c :: cs),
              ?_, ?_⟩
            · rw [bottomRowBody_cons, if_neg h0, if_neg hm0, if_pos hm1]
            · apply bind_isSome_of
              obtain ⟨q, hq⟩ := Option.isSome_iff_exists.mp (ih (j + 1) dr (c :: cs) h)
              exact ⟨q, hq, rfl⟩
          · obtain ⟨p, hp⟩ := Option.isSome_iff_exists.mp
              (writeColoured_isSome c.text c.colours (h c (by simp)))
            refine ⟨(writePadding c.at_ ++ p.1 ++
                bottomScanRest cs (c.at_ + (c.text.length : Int)),
                some { c with colours := p.2 }, cs), ?_, ?_⟩
            · rw [bottomRowBody_cons, if_neg h0, if_neg hm0, if_neg hm1, hp,
                Option.some_bind]
            · apply bind_isSome_of
              obtain ⟨q, hq⟩ := Option.isSome_iff_exists.mp
                (ih (j + 1) ({ c with colours := p.2 } :: dr) cs
                  (fun x hx => h x (by simp [hx])))
              exact ⟨q, hq, rfl⟩

/-- One unfolding step of the above-row scan. -/
theorem topScanAux_cons (mod : Nat) (c : commentInfo) (cs : List commentInfo)
    (k cw : Nat) (cursor : Int) (written : Bool) :
    topScanAux mod (c :: cs) k cw cursor written =
      if cursor > c.at_ then
        (topScanAux mod cs (k + 1) cw cursor written).bind fun r =>
          some (r.1, r.2.1, c :: r.2.2)
      else if k = cw ∧ written = false ∧ mod = 0 then
        (writeColoured c.text c.colours).bind fun p =>
          (topScanAux mod cs (k + 1) (cw + 1) (c.at_ + (c.text.length : Int)) true).bind fun r =>
            some (writePadding (c.at_ - cursor) ++ p.1 ++ r.1, r.2.1,
                  { c with colours := p.2 } :: r.2.2)
      else if k + 1 = cw ∧ mod = 1 then
        (topScanAux mod cs (k + 1) cw (c.at_ + 1) written).bind fun r =>
          some (writePadding (c.at_ - cursor) ++ "^" ++ r.1, r.2.1, c :: r.2.2)
      else if k < cw then
        (topScanAux mod cs (k + 1) cw (c.at_ + 1) written).bind fun r =>
          some (writePadding (c.at_ - cursor) ++ "│" ++ r.1, r.2.1, c :: r.2.2)
      else
        (topScanAux mod cs (k + 1) cw c.at_ written).bind fun r =>
          some (writePadding (c.at_ - cursor) ++ r.1, r.2.1, c :: r.2.2) := rfl

/-- The above-row scan succeeds on `colourOK` comments and preserves the
invariant on the comment list it returns. -/
theorem topScanAux_total (mod : Nat) (cs : List commentInfo) :
    ∀ (k cw : Nat) (cursor : Int) (written : Bool),
    (∀ c ∈ cs, colourOK c.text c.colours) →
    ∃ r, topScanAux mod cs k cw cursor written = some r ∧
      ∀ c ∈ r.2.2, colourOK c.text c.colours := by
  induction cs with
  | nil =>
    intro k cw cursor written _
    exact ⟨("", cw, []), rfl, by intro c hc; cases hc⟩
  | cons c cs ih =>
    intro k cw cursor written h
    have hc : colourOK c.text c.colours := h c (by simp)
    have htl : ∀ x ∈ cs, colourOK x.text x.colours := fun x hx => h x (by simp [hx])
    by_cases hsk : cursor > c.at_
    · obtain ⟨r, hr, hrOK⟩ := ih (k + 1) cw cursor written htl
      refine ⟨(r.1, r.2.1, c :: r.2.2), ?_, ?_⟩
      · rw [topScanAux_cons, if_pos hsk, hr, Option.some_bind]
      · intro x hx
        rcases List.mem_cons.mp hx with rfl | hx
        · exact hc
        · exact hrOK x hx
    · by_cases hrev : k = cw ∧ written = false ∧ mod = 0
      · obtain ⟨p, hp⟩ := Option.isSome_iff_exists.mp (writeColoured_isSome c.text c.colours hc)
        obtain ⟨r, hr, hrOK⟩ := ih (k + 1) (cw + 1) (c.at_ + (c.text.length : Int)) true htl
        refine ⟨(writePadding (c.at_ - cursor) ++ p.1 ++ r.1, r.2.1,
            { c with colours := p.2 } :: r.2.2), ?_, ?_⟩
        · rw [topScanAux_cons, if_neg hsk, if_pos hrev, hp, Option.some_bind, hr,
            Option.some_bind]
        · intro x hx
          rcases List.mem_cons.mp hx with rfl | hx
          · show colourOK c.text p.2
            rw [writeColoured_snd c.text c.colours p hp]
            exact colourOK_sortColours c.text c.colours hc
          · exact hrOK x hx
      · by_cases harr : k + 1 = cw ∧ mod = 1
        · obtain ⟨r, hr, hrOK⟩ := ih (k + 1) cw (c.at_ + 1) written htl
          refine ⟨(writePadding (c.at_ - cursor) ++ "^" ++ r.1, r.2.1, c :: r.2.2), ?_, ?_⟩
          · rw [topScanAux_cons, if_neg hsk, if_neg hrev, if_pos harr, hr, Option.some_bind]
          · intro x hx
            rcases List.mem_cons.mp hx with rfl | hx
            · exact hc
            · exact hrOK x hx
        · by_cases hlt : k < cw
          · obtain ⟨r, hr, hrOK⟩ := ih (k + 1) cw (c.at_ + 1) written htl
            refine ⟨(writePadding (c.at_ - cursor) ++ "│" ++ r.1, r.2.1, c :: r.2.2), ?_, ?_⟩
            · rw [topScanAux_cons, if_neg hsk, if_neg hrev, if_neg harr, if_pos hlt, hr,
                Option.some_bind]
            · intro x hx
              rcases List.mem_cons.mp hx with rfl | hx
              · exact hc
              · exact hrOK x hx
          · obtain ⟨r, hr, hrOK⟩ := ih (k + 1) cw c.at_ written htl
            refine ⟨(writePadding (c.at_ - cursor) ++ r.1, r.2.1, c :: r.2.2), ?_, ?_⟩
            · rw [topScanAux_cons, if_neg hsk, if_neg hrev, if_neg harr, if_neg hlt, hr,
                Option.some_bind]
            · intro x hx
              rcases List.mem_cons.mp hx with rfl | hx
              · exact hc
              · exact hrOK x hx

/-- One unfolding step of the above-rows outer loop. -/
theorem topLoop_succ (g : String) (fuel j cw : Nat) (comments : List commentInfo) :
    topLoop g (fuel + 1) j cw comments =
      (topScanAux (j % 3) comments 0 cw 0 false).bind fun r =>
        (topLoop g fuel (j + 1) r.2.1 r.2.2).bind fun q =>
          some (g ++ r.1 ++ "\n" ++ q.1, q.2) := rfl

/-- The above-rows loop succeeds on `colourOK` comments. -/
theorem topLoop_isSome (g : String) (fuel : Nat) :
    ∀ (j cw : Nat) (comments : List commentInfo),
    (∀ c ∈ comments, colourOK c.text c.colours) →
    (topLoop g fuel j cw comments).isSome := by
  induction fuel with
  | zero =>
    intro j cw comments _
    rfl
  | succ fuel ih =>
    intro j cw comments h
    rw [topLoop_succ]
    apply bind_isSome_of
    obtain ⟨r, hr, hrOK⟩ := topScanAux_total (j % 3) comments 0 cw 0 false h
    refine ⟨r, hr, ?_⟩
    apply bind_isSome_of
    obtain ⟨q, hq⟩ := Option.isSome_iff_exists.mp (ih (j + 1) r.2.1 r.2.2 hrOK)
    exact ⟨q, hq, rfl⟩

/-- One line renders whenever its colour lists are `colourOK`. -/
theorem renderLine_isSome (L : Nat) (l : lineInfo)
    (hcl : colourOK l.text l.colours)
    (hct : ∀ c ∈ l.topComments, colourOK c.text c.colours)
    (hcb : ∀ c ∈ l.bottomComments, colourOK c.text c.colours) :
    (renderLine L l).isSome := by
  unfold renderLine
  apply bind_isSome_of
  have htop : (writeTopComments L l.topComments).isSome := by
    unfold writeTopComments
    exact topLoop_isSome _ _ 0 0 _ hct
  obtain ⟨tp, htp⟩ := Option.isSome_iff_exists.mp htop
  refine ⟨tp, htp, ?_⟩
  apply bind_isSome_of
  obtain ⟨cl, hcl'⟩ := Option.isSome_iff_exists.mp (writeColoured_isSome l.text l.colours hcl)
  refine ⟨cl, hcl', ?_⟩
  apply bind_isSome_of
  have hbot : (writeBottomComments L l.bottomComments).isSome := by
    unfold writeBottomComments
    exact bottomLoop_isSome _ _ 0 [] _ hcb
  obtain ⟨bt, hbt⟩ := Option.isSome_iff_exists.mp hbot
  exact ⟨bt, hbt, rfl⟩

/-- C1 as amended: the render pass is total on every document whose colour
lists are in bounds and have no strict nesting (`colourOK` everywhere).
The Go code would panic on a strictly nested pair, so the no-nesting side
condition is exactly what the counterexample forces. -/
theorem C1_render_total_without_nesting (d : Decorator) (h : decColoursOK d) :
    (DecoratorString d).isSome := by
  unfold DecoratorString
  rw [Option.isSome_map']
  have hlines : ∀ l ∈ d.lines.map (fun l => { l with meta := generatePfx l.meta }),
      colourOK l.text l.colours ∧
        (∀ c ∈ l.topComments, colourOK c.text c.colours) ∧
        (∀ c ∈ l.bottomComments, colourOK c.text c.colours) := by
    intro l hl
    obtain ⟨x, hx, rfl⟩ := List.mem_map.mp hl
    exact h x hx
  generalize (longestPfx (d.lines.map fun l => { l with meta := generatePfx l.meta })) = L
  generalize hls : d.lines.map (fun l => { l with meta := generatePfx l.meta }) = ls at hlines
  clear hls h
  induction ls with
  | nil => rfl
  | cons l ls ih =>
    obtain ⟨hcl, hct, hcb⟩ := hlines l (by simp)
    unfold renderLines
    apply bind_isSome_of
    obtain ⟨rl, hrl⟩ := Option.isSome_iff_exists.mp (renderLine_isSome L l hcl hct hcb)
    refine ⟨rl, hrl, ?_⟩
    apply bind_isSome_of
    obtain ⟨q, hq⟩ := Option.isSome_iff_exists.mp (ih (fun x hx => hlines x (by simp [hx])))
    exact ⟨q, hq, rfl⟩

/-- Witness for the amended C1: a concrete document with two overlapping but
not strictly nested ranges renders successfully. -/
theorem C1_render_total_without_nesting_witness :
    (DecoratorString ⟨[⟨"0123456789", [⟨0, 5, "A"⟩, ⟨3, 8, "B"⟩], ⟨1, "f", ""⟩, [], []⟩]⟩).isSome :=
  C1_render_total_without_nesting
    ⟨[⟨"0123456789", [⟨0, 5, "A"⟩, ⟨3, 8, "B"⟩], ⟨1, "f", ""⟩, [], []⟩]⟩ (by decide)

/-- What an in-place update leaves of a comment: anchor and text unchanged,
colours permuted at most. -/
theorem commentUpd_spec (c c' : commentInfo) (h : commentUpd c c') :
    c'.at_ = c.at_ ∧ c'.text = c.text ∧ c'.colours.Perm c.colours := by
  rcases h with rfl | rfl
  · exact ⟨rfl, rfl, List.Perm.refl _⟩
  · exact ⟨rfl, rfl, sortColours_perm c.colours⟩

/-- The relation `commentUpd` composes. -/
theorem commentUpd_trans (a b c : commentInfo) (h1 : commentUpd a b) (h2 : commentUpd b c) :
    commentUpd a c := by
  rcases h1 with rfl | rfl
  · exact h2
  · rcases h2 with rfl | rfl
    · exact Or.inr rfl
    · exact Or.inr (sortComment_idem a)

/-- Lists related by `commentUpd` pointwise compose transitively. -/
theorem forall₂_commentUpd_trans : ∀ (l₁ l₂ l₃ : List commentInfo),
    List.Forall₂ commentUpd l₁ l₂ → List.Forall₂ commentUpd l₂ l₃ →
    List.Forall₂ commentUpd l₁ l₃ := by
  intro l₁ l₂ l₃ h1 h2
  induction h1 generalizing l₃ with
  | nil =>
    cases h2
    exact List.Forall₂.nil
  | cons hab htl ih =>
    cases h2 with
    | cons hbc htl' => exact List.Forall₂.cons (commentUpd_trans _ _ _ hab hbc) (ih _ htl')

/-- Everything in the `todo` list survives the below loop, up to in-place
colour sorting, appended after the already-done prefix. -/
theorem bottomLoop_upd (g : String) (fuel : Nat) :
    ∀ (j : Nat) (doneRev todo : List commentInfo) (out : String) (fin : List commentInfo),
    bottomLoop g fuel j doneRev todo = some (out, fin) →
    ∃ todoFin, fin = doneRev.reverse ++ todoFin ∧ List.Forall₂ commentUpd todo todoFin := by
  induction fuel with
  | zero =>
    intro j dr td out fin h
    simp only [bottomLoop, Option.some.injEq, Prod.mk.injEq] at h
    exact ⟨td, h.2.symm, List.forall₂_same.mpr fun x _ => Or.inl rfl⟩
  | succ fuel ih =>
    intro j dr td out fin h
    rw [bottomLoop_succ] at h
    obtain ⟨r, hr, h2⟩ := Option.bind_eq_some.mp h
    obtain ⟨q, hq, h3⟩ := Option.bind_eq_some.mp h2
    simp only [Option.some.injEq, Prod.mk.injEq] at h3
    obtain ⟨-, hfin⟩ := h3
    subst hfin
    cases td with
    | nil =>
      rw [bottomRowBody_nil] at hr
      injection hr with hr
      subst hr
      have hq' : bottomLoop g fuel (j + 1) dr [] = some q := hq
      obtain ⟨tf, htf, hall⟩ := ih (j + 1) dr [] q.1 q.2 (by rw [hq'])
      cases hall
      exact ⟨[], htf, List.Forall₂.nil⟩
    | cons c cs =>
      rw [bottomRowBody_cons] at hr
      by_cases h0 : (0 : Int) > c.at_
      · rw [if_pos h0] at hr
        injection hr with hr
        subst hr
        have hq' : bottomLoop g fuel (j + 1) dr (c :: cs) = some q := hq
        exact ih (j + 1) dr (c :: cs) q.1 q.2 (by rw [hq'])
      · rw [if_neg h0] at hr
        by_cases hm0 : j % 3 = 0
        · rw [if_pos hm0] at hr
          injection hr with hr
          subst hr
          have hq' : bottomLoop g fuel (j + 1) dr (c :: cs) = some q := hq
          exact ih (j + 1) dr (c :: cs) q.1 q.2 (by rw [hq'])
        · rw [if_neg hm0] at hr
          by_cases hm1 : j % 3 = 1
          · rw [if_pos hm1] at hr
            injection hr with hr
            subst hr
            have hq' : bottomLoop g fuel (j + 1) dr (c :: cs) = some q := hq
            exact ih (j + 1) dr (c :: cs) q.1 q.2 (by rw [hq'])
          · rw [if_neg hm1] at hr
            obtain ⟨p, hp, hrr⟩ := Option.bind_eq_some.mp hr
            injection hrr with hrr
            subst hrr
            have hq' : bottomLoop g fuel (j + 1) ({ c with colours := p.2 } :: dr) cs =
                some q := hq
            obtain ⟨tf, htf, hall⟩ := ih (j + 1) _ cs q.1 q.2 (by rw [hq'])
            refine ⟨{ c with colours := p.2 } :: tf, ?_, ?_⟩
            · rw [htf]
              simp
            · refine List.Forall₂.cons (Or.inr ?_) hall
              unfold sortComment
              rw [writeColoured_snd c.text c.colours p hp]

/-- The above-row scan only sorts colours in place: every comment survives at
its position. -/
theorem topScanAux_upd (mod : Nat) (cs : List commentInfo) :
    ∀ (k cw : Nat) (cursor : Int) (written : Bool) (r : String × Nat × List commentInfo),
    topScanAux mod cs k cw cursor written = some r →
    List.Forall₂ commentUpd cs r.2.2 := by
  induction cs with
  | nil =>
    intro k cw cursor written r h
    injection h with h
    subst h
    exact List.Forall₂.nil
  | cons c cs ih =>
    intro k cw cursor written r h
    rw [topScanAux_cons] at h
    by_cases hsk : cursor > c.at_
    · rw [if_pos hsk] at h
      obtain ⟨q, hq, h2⟩ := Option.bind_eq_some.mp h
      injection h2 with h2
      subst h2
      exact List.Forall₂.cons (Or.inl rfl) (ih _ _ _ _ q hq)
    · rw [if_neg hsk] at h
      by_cases hrev : k = cw ∧ written = false ∧ mod = 0
      · rw [if_pos hrev] at h
        obtain ⟨p, hp, h2⟩ := Option.bind_eq_some.mp h
        obtain ⟨q, hq, h3⟩ := Option.bind_eq_some.mp h2
        injection h3 with h3
        subst h3
        refine List.Forall₂.cons (Or.inr ?_) (ih _ _ _ _ q hq)
        unfold sortComment
        rw [writeColoured_snd c.text c.colours p hp]
      · rw [if_neg hrev] at h
        by_cases harr : k + 1 = cw ∧ mod = 1
        · rw [if_pos harr] at h
          obtain ⟨q, hq, h2⟩ := Option.bind_eq_some.mp h
          injection h2 with h2
          subst h2
          exact List.Forall₂.cons (Or.inl rfl) (ih _ _ _ _ q hq)
        · rw [if_neg harr] at h
          by_cases hlt : k < cw
          · rw [if_pos hlt] at h
            obtain ⟨q, hq, h2⟩ := Option.bind_eq_some.mp h
            injection h2 with h2
            subst h2
            exact List.Forall₂.cons (Or.inl rfl) (ih _ _ _ _ q hq)
          · rw [if_neg hlt] at h
            obtain ⟨q, hq, h2⟩ := Option.bind_eq_some.mp h
            injection h2 with h2
            subst h2
            exact List.Forall₂.cons (Or.inl rfl) (ih _ _ _ _ q hq)

/-- The above loop only sorts colours in place. -/
theorem topLoop_upd (g : String) (fuel : Nat) :
    ∀ (j cw : Nat) (comments : List commentInfo) (out : String) (fin : List commentInfo),
    topLoop g fuel j cw comments = some (out, fin) →
    List.Forall₂ commentUpd comments fin := by
  induction fuel with
  | zero =>
    intro j cw comments out fin h
    simp only [topLoop, Option.some.injEq, Prod.mk.injEq] at h
    rw [← h.2]
    exact List.forall₂_same.mpr fun x _ => Or.inl rfl
  | succ fuel ih =>
    intro j cw comments out fin h
    rw [topLoop_succ] at h
    obtain ⟨r, hr, h2⟩ := Option.bind_eq_some.mp h
    obtain ⟨q, hq, h3⟩ := Option.bind_eq_some.mp h2
    simp only [Option.some.injEq, Prod.mk.injEq] at h3
    obtain ⟨-, hfin⟩ := h3
    subst hfin
    exact forall₂_commentUpd_trans _ _ _
      (topScanAux_upd (j % 3) comments 0 cw 0 false r hr)
      (ih (j + 1) r.2.1 r.2.2 q.1 q.2 (by rw [hq]))

/-- What rendering one line leaves of it. -/
theorem renderLine_upd (L : Nat) (l : lineInfo) (s : String) (l' : lineInfo)
    (h : renderLine L l = some (s, l')) : lineUpd l l' := by
  unfold renderLine at h
  obtain ⟨tp, htp, h2⟩ := Option.bind_eq_some.mp h
  obtain ⟨cl, hcl, h3⟩ := Option.bind_eq_some.mp h2
  obtain ⟨bt, hbt, h4⟩ := Option.bind_eq_some.mp h3
  simp only [Option.pure_def, Option.some.injEq, Prod.mk.injEq] at h4
  obtain ⟨hs4, hl4⟩ := h4
  subst hl4
  refine ⟨rfl, rfl, ?_, ?_, ?_⟩
  · show cl.2 = sortColours l.colours
    exact writeColoured_snd l.text l.colours cl hcl
  · show List.Forall₂ commentUpd l.topComments tp.2
    unfold writeTopComments at htp
    exact topLoop_upd _ _ 0 0 _ tp.1 tp.2 (by rw [htp])
  · show List.Forall₂ commentUpd l.bottomComments bt.2
    unfold writeBottomComments at hbt
    obtain ⟨tf, htf, hall⟩ := bottomLoop_upd _ _ 0 [] l.bottomComments bt.1 bt.2 (by rw [hbt])
    simpa [htf] using hall

/-- What rendering leaves of the line list. -/
theorem renderLines_upd (L : Nat) (ls : List lineInfo) :
    ∀ (out : String) (fin : List lineInfo),
    renderLines L ls = some (out, fin) → List.Forall₂ lineUpd ls fin := by
  induction ls with
  | nil =>
    intro out fin h
    simp only [renderLines, Option.some.injEq, Prod.mk.injEq] at h
    rw [← h.2]
    exact List.Forall₂.nil
  | cons l ls ih =>
    intro out fin h
    unfold renderLines at h
    obtain ⟨r, hr, h2⟩ := Option.bind_eq_some.mp h
    obtain ⟨q, hq, h3⟩ := Option.bind_eq_some.mp h2
    simp only [Option.pure_def, Option.some.injEq, Prod.mk.injEq] at h3
    obtain ⟨-, hfin⟩ := h3
    subst hfin
    exact List.Forall₂.cons (renderLine_upd L l r.1 r.2 (by rw [hr])) (ih q.1 q.2 (by rw [hq]))

/-- The pass `generatePrefix` only touches the cache field. -/
theorem generatePfx_fields (m : LineMetadata) :
    (generatePfx m).FileName = m.FileName ∧ (generatePfx m).LineNumber = m.LineNumber := by
  unfold generatePfx
  split <;> exact ⟨rfl, rfl⟩

/-- Comment lists related by in-place updates agree pointwise on anchors and
texts, and on colours up to permutation. -/
theorem forall₂_commentUpd_pointwise (l₁ l₂ : List commentInfo)
    (h : List.Forall₂ commentUpd l₁ l₂) :
    l₂.length = l₁.length ∧ ∀ i, i < l₁.length →
      (l₂.getD i commentDefault).at_ = (l₁.getD i commentDefault).at_ ∧
      (l₂.getD i commentDefault).text = (l₁.getD i commentDefault).text ∧
      ((l₂.getD i commentDefault).colours).Perm ((l₁.getD i commentDefault).colours) := by
  obtain ⟨hlen, hget⟩ := List.forall₂_iff_get.mp h
  refine ⟨hlen.symm, ?_⟩
  intro i hi
  have hi₂ : i < l₂.length := by omega
  rw [List.getD_eq_getElem l₂ commentDefault hi₂, List.getD_eq_getElem l₁ commentDefault hi]
  have := commentUpd_spec _ _ (hget i hi hi₂)
  simpa [List.get_eq_getElem] using this

/-- C4 as amended: rendering preserves the document's content up to its two
in-place effects.  For every line, the text, file name and line number are
unchanged; the colour list is a permutation (the in-place sort) of the old
one; every comment keeps its anchor and text and keeps its colours up to
permutation.  (The claim as stated is false: the render memoizes the gutter
prefix and sorts colour lists in place - see the counterexample.) -/
theorem C4_render_preserves_content (d : Decorator) (s : String) (d' : Decorator)
    (h : DecoratorString d = some (s, d')) :
    d'.lines.length = d.lines.length ∧
    ∀ i, i < d.lines.length →
      lineStateSim (d.lines.getD i lineDefault) (d'.lines.getD i lineDefault) := by
  unfold DecoratorString at h
  rcases hr : renderLines
      (longestPfx (d.lines.map fun l => { l with meta := generatePfx l.meta }))
      (d.lines.map fun l => { l with meta := generatePfx l.meta }) with _ | q
  · rw [hr] at h
    cases h
  · rw [hr] at h
    simp only [Option.map_some', Option.some.injEq, Prod.mk.injEq] at h
    obtain ⟨-, hd⟩ := h
    subst hd
    have hfa := renderLines_upd _ _ q.1 q.2 (by rw [hr])
    obtain ⟨hlen, hget⟩ := List.forall₂_iff_get.mp hfa
    have hlen' : q.2.length = d.lines.length := by
      rw [← hlen]
      simp
    refine ⟨hlen', ?_⟩
    intro i hi
    have hi₁ : i < (d.lines.map fun l => { l with meta := generatePfx l.meta }).length := by
      simpa using hi
    have hi₂ : i < q.2.length := by omega
    have hu := hget i hi₁ hi₂
    simp only [List.get_eq_getElem, List.getElem_map] at hu
    obtain ⟨htext, hmeta, hcols, htop, hbot⟩ := hu
    show lineStateSim (d.lines.getD i lineDefault) ((Decorator.mk q.2).lines.getD i lineDefault)
    rw [show (Decorator.mk q.2).lines = q.2 from rfl]
    rw [List.getD_eq_getElem q.2 lineDefault hi₂, List.getD_eq_getElem d.lines lineDefault hi]
    have htl := forall₂_commentUpd_pointwise _ _ htop
    have hbl := forall₂_commentUpd_pointwise _ _ hbot
    refine ⟨?_, ?_, ?_, ?_, ?_, ?_, ?_, ?_⟩
    · simpa using htext
    · rw [hmeta]
      simpa using (generatePfx_fields (d.lines[i].meta)).1
    · rw [hmeta]
      simpa using (generatePfx_fields (d.lines[i].meta)).2
    · rw [hcols]
      exact sortColours_perm _
    · simpa using htl.1
    · intro k hk
      have := htl.2 k (by simpa using hk)
      simpa using this
    · simpa using hbl.1
    · intro k hk
      have := hbl.2 k (by simpa using hk)
      simpa using this

/-- Witness for the amended C4: line 0 of the concrete document keeps its
content up to the in-place effects. -/
theorem C4_render_preserves_content_witness :
    (⟨[⟨"abcde", [⟨0, 1, "Y"⟩, ⟨2, 4, "X"⟩], ⟨1, "f", "f @ 1"⟩, [], []⟩]⟩ :
        Decorator).lines.length = docUnsorted.lines.length ∧
    lineStateSim (docUnsorted.lines.getD 0 lineDefault)
      ((⟨[⟨"abcde", [⟨0, 1, "Y"⟩, ⟨2, 4, "X"⟩], ⟨1, "f", "f @ 1"⟩, [], []⟩]⟩ :
          Decorator).lines.getD 0 lineDefault) :=
  ⟨(C4_render_preserves_content docUnsorted "f @ 1 | Ya\x1b[0mbXcd\x1b[0me\n"
      ⟨[⟨"abcde", [⟨0, 1, "Y"⟩, ⟨2, 4, "X"⟩], ⟨1, "f", "f @ 1"⟩, [], []⟩]⟩ (by decide)).1,
    (C4_render_preserves_content docUnsorted "f @ 1 | Ya\x1b[0mbXcd\x1b[0me\n"
      ⟨[⟨"abcde", [⟨0, 1, "Y"⟩, ⟨2, 4, "X"⟩], ⟨1, "f", "f @ 1"⟩, [], []⟩]⟩ (by decide)).2 0
      (by decide)⟩

/-- A line with no colours and no comments renders as its gutter row. -/
theorem renderLine_bare (L : Nat) (l : lineInfo)
    (h1 : l.colours = []) (h2 : l.topComments = []) (h3 : l.bottomComments = []) :
    renderLine L l = some (writePfx l.meta.cachedPfx L ++ l.text ++ "\n", l) := by
  obtain ⟨tx, cl, mt, tc, bc⟩ := l
  simp only at h1 h2 h3
  subst h1
  subst h2
  subst h3
  unfold renderLine
  rw [show writeTopComments L [] = some ("", []) from rfl, writeColoured_nil,
      show writeBottomComments L [] = some ("", []) from rfl]
  show some ("" ++ writePfx mt.cachedPfx L ++ tx ++ "\n" ++ "",
      (⟨tx, [], mt, [], []⟩ : lineInfo)) = _
  simp

/-- A document of bare lines renders as the sequence of gutter rows. -/
theorem renderLines_bare (L : Nat) (ls : List lineInfo)
    (h : ∀ l ∈ ls, l.colours = [] ∧ l.topComments = [] ∧ l.bottomComments = []) :
    renderLines L ls = some (gutterRowsSpec L ls, ls) := by
  induction ls with
  | nil => rfl
  | cons l ls ih =>
    obtain ⟨h1, h2, h3⟩ := h l (by simp)
    unfold renderLines
    rw [renderLine_bare L l h1 h2 h3, ih (fun x hx => h x (by simp [hx]))]
    rfl

/-- With freshly generated caches, the gutter rows are exactly the
prefix-right-padded rows of the claim's amended reading. -/
theorem gutterRows_eq_plainRows (L : Nat) (ls : List lineInfo)
    (hc : ∀ l ∈ ls, (generatePfx l.meta).cachedPfx = plainPfx l) :
    gutterRowsSpec L (ls.map fun l => { l with meta := generatePfx l.meta }) =
      plainRowsSpec L ls := by
  induction ls with
  | nil => rfl
  | cons l ls ih =>
    simp only [List.map_cons]
    rw [show gutterRowsSpec L ({ l with meta := generatePfx l.meta } ::
          (ls.map fun l => { l with meta := generatePfx l.meta })) =
        writePfx (generatePfx l.meta).cachedPfx L ++ l.text ++ "\n" ++
          gutterRowsSpec L (ls.map fun l => { l with meta := generatePfx l.meta })
        from rfl]
    rw [hc l (by simp), ih (fun x hx => hc x (by simp [hx]))]
    rfl

/-- C5 as amended: for a document built from `AddLine` alone, every rendered
line is its prefix `"<fileName> @ <lineNumber>"` RIGHT-padded with spaces to
the document's maximum prefix width, followed by `" | "`, the line text and
a newline.  (The claim's left-padding is refuted by the counterexample.) -/
theorem C5_gutter_right_padded_general (d : Decorator)
    (hb : ∀ l ∈ d.lines, bareLine l) :
    (DecoratorString d).map Prod.fst =
      some (plainRowsSpec ((d.lines.map fun l => (plainPfx l).length).foldl Nat.max 0)
        d.lines) := by
  have hcache : ∀ l ∈ d.lines, (generatePfx l.meta).cachedPfx = plainPfx l := by
    intro l hl
    have := (hb l hl).2.2.2
    unfold generatePfx
    rw [if_pos this]
    rfl
  have hlen : longestPfx (d.lines.map fun l => { l with meta := generatePfx l.meta }) =
      (d.lines.map fun l => (plainPfx l).length).foldl Nat.max 0 := by
    unfold longestPfx
    rw [List.map_map]
    congr 1
    apply List.map_congr_left
    intro l hl
    show (generatePfx l.meta).cachedPfx.length = (plainPfx l).length
    rw [hcache l hl]
  unfold DecoratorString
  rw [hlen]
  rw [renderLines_bare _ _ ?bare]
  case bare =>
    intro x hx
    obtain ⟨l, hl, rfl⟩ := List.mem_map.mp hx
    exact ⟨(hb l hl).1, (hb l hl).2.1, (hb l hl).2.2.1⟩
  rw [Option.map_some']
  show some (gutterRowsSpec _ _) = _
  rw [gutterRows_eq_plainRows _ d.lines hcache]

/-- Witness for the amended C5 on the two-line document. -/
theorem C5_gutter_right_padded_general_witness :
    (DecoratorString docTwoLines).map Prod.fst =
      some (plainRowsSpec
        ((docTwoLines.lines.map fun l => (plainPfx l).length).foldl Nat.max 0)
        docTwoLines.lines) :=
  C5_gutter_right_padded_general docTwoLines (by decide)

/-- The painted output depends only on the sorted colour list. -/
theorem writeColoured_congr (t : String) (cs₁ cs₂ : List LineColour)
    (h : sortColours cs₁ = sortColours cs₂) :
    writeColoured t cs₁ = writeColoured t cs₂ := by
  unfold writeColoured
  rw [h]

/-- Connector tails only read the anchors. -/
theorem bottomScanRest_congr (cs₁ cs₂ : List commentInfo)
    (h : List.Forall₂ commentPaintEq cs₁ cs₂) :
    ∀ cursor, bottomScanRest cs₁ cursor = bottomScanRest cs₂ cursor := by
  induction h with
  | nil => intro cursor; rfl
  | cons hc htl ih =>
    intro cursor
    unfold bottomScanRest
    rw [hc.1, ih cursor, ih _]

/-- A below row is the same on paint-equal comment lists, and leaves
paint-equal lists behind. -/
theorem bottomRowBody_congr (m : Nat) (t₁ t₂ : List commentInfo)
    (h : List.Forall₂ commentPaintEq t₁ t₂) :
    optRel (fun r₁ r₂ => r₁.1 = r₂.1 ∧ List.Forall₂ commentPaintEq r₁.2.2 r₂.2.2)
      (bottomRowBody m t₁) (bottomRowBody m t₂) := by
  cases h with
  | nil => exact ⟨rfl, List.Forall₂.nil⟩
  | @cons c₁ c₂ cs₁ cs₂ hc htl =>
    obtain ⟨hat, htx, hcol⟩ := hc
    rw [bottomRowBody_cons, bottomRowBody_cons]
    by_cases h0 : (0 : Int) > c₁.at_
    · have h0₂ : (0 : Int) > c₂.at_ := by rw [← hat]; exact h0
      rw [if_pos h0, if_pos h0₂]
      exact ⟨bottomScanRest_congr _ _ htl 0, List.Forall₂.cons ⟨hat, htx, hcol⟩ htl⟩
    · have h0₂ : ¬ (0 : Int) > c₂.at_ := by rw [← hat]; exact h0
      rw [if_neg h0, if_neg h0₂]
      by_cases hm0 : m = 0
      · rw [if_pos hm0, if_pos hm0]
        exact ⟨by rw [hat, bottomScanRest_congr _ _ htl],
          List.Forall₂.cons ⟨hat, htx, hcol⟩ htl⟩
      · rw [if_neg hm0, if_neg hm0]
        by_cases hm1 : m = 1
        · rw [if_pos hm1, if_pos hm1]
          exact ⟨by rw [hat, bottomScanRest_congr _ _ htl],
            List.Forall₂.cons ⟨hat, htx, hcol⟩ htl⟩
        · rw [if_neg hm1, if_neg hm1]
          rw [show writeColoured c₂.text c₂.colours = writeColoured c₁.text c₁.colours from by
            rw [← htx]; exact (writeColoured_congr _ _ _ hcol).symm]
          cases hp : writeColoured c₁.text c₁.colours with
          | none => exact trivial
          | some p =>
            rw [Option.some_bind, Option.some_bind]
            exact ⟨by rw [hat, htx, bottomScanRest_congr _ _ htl], htl⟩

/-- Below rows print the same on paint-equal pending lists. -/
theorem bottomLoop_congr (g : String) (fuel : Nat) :
    ∀ (j : Nat) (d₁ d₂ t₁ t₂ : List commentInfo),
    List.Forall₂ commentPaintEq t₁ t₂ →
    (bottomLoop g fuel j d₁ t₁).map Prod.fst = (bottomLoop g fuel j d₂ t₂).map Prod.fst := by
  induction fuel with
  | zero =>
    intro j d₁ d₂ t₁ t₂ _
    rfl
  | succ fuel ih =>
    intro j d₁ d₂ t₁ t₂ h
    rw [bottomLoop_succ, bottomLoop_succ]
    have hbody := bottomRowBody_congr (j % 3) t₁ t₂ h
    cases hb₁ : bottomRowBody (j % 3) t₁ with
    | none =>
      rw [hb₁] at hbody
      cases hb₂ : bottomRowBody (j % 3) t₂ with
      | none => rfl
      | some r₂ => rw [hb₂] at hbody; exact absurd hbody (by simp [optRel])
    | some r₁ =>
      rw [hb₁] at hbody
      cases hb₂ : bottomRowBody (j % 3) t₂ with
      | none => rw [hb₂] at hbody; exact absurd hbody (by simp [optRel])
      | some r₂ =>
        rw [hb₂] at hbody
        obtain ⟨hout, htodo⟩ := hbody
        rw [Option.some_bind, Option.some_bind]
        have hrec := ih (j + 1)
          (match r₁.2.1 with | some c => c :: d₁ | none => d₁)
          (match r₂.2.1 with | some c => c :: d₂ | none => d₂)
          r₁.2.2 r₂.2.2 htodo
        cases hq₁ : bottomLoop g fuel (j + 1)
            (match r₁.2.1 with | some c => c :: d₁ | none => d₁) r₁.2.2 with
        | none =>
          rw [hq₁] at hrec
          cases hq₂ : bottomLoop g fuel (j + 1)
              (match r₂.2.1 with | some c => c :: d₂ | none => d₂) r₂.2.2 with
          | none => rfl
          | some q₂ => rw [hq₂] at hrec; cases hrec
        | some q₁ =>
          rw [hq₁] at hrec
          cases hq₂ : bottomLoop g fuel (j + 1)
              (match r₂.2.1 with | some c => c :: d₂ | none => d₂) r₂.2.2 with
          | none => rw [hq₂] at hrec; cases hrec
          | some q₂ =>
            rw [hq₂] at hrec
            simp only [Option.map_some', Option.some.injEq] at hrec
            rw [Option.some_bind, Option.some_bind]
            simp only [Option.map_some', Option.some.injEq]
            rw [hout, hrec]

/-- The above-row scan prints the same on paint-equal comment lists and keeps
them paint-equal. -/
theorem topScanAux_congr (mod : Nat) (cs₁ cs₂ : List commentInfo)
    (h : List.Forall₂ commentPaintEq cs₁ cs₂) :
    ∀ (k cw : Nat) (cursor : Int) (written : Bool),
    optRel (fun r₁ r₂ => r₁.1 = r₂.1 ∧ r₁.2.1 = r₂.2.1 ∧
        List.Forall₂ commentPaintEq r₁.2.2 r₂.2.2)
      (topScanAux mod cs₁ k cw cursor written) (topScanAux mod cs₂ k cw cursor written) := by
  induction h with
  | nil =>
    intro k cw cursor written
    exact ⟨rfl, rfl, List.Forall₂.nil⟩
  | @cons c₁ c₂ cs₁ cs₂ hc htl ih =>
    intro k cw cursor written
    obtain ⟨hat, htx, hcol⟩ := hc
    rw [topScanAux_cons, topScanAux_cons, ← hat, ← htx]
    by_cases hsk : cursor > c₁.at_
    · rw [if_pos hsk, if_pos hsk]
      have hrec := ih (k + 1) cw cursor written
      cases hq₁ : topScanAux mod cs₁ (k + 1) cw cursor written with
      | none =>
        rw [hq₁] at hrec
        cases hq₂ : topScanAux mod cs₂ (k + 1) cw cursor written with
        | none => exact trivial
        | some q₂ => rw [hq₂] at hrec; cases hrec
      | some q₁ =>
        rw [hq₁] at hrec
        cases hq₂ : topScanAux mod cs₂ (k + 1) cw cursor written with
        | none => rw [hq₂] at hrec; cases hrec
        | some q₂ =>
          rw [hq₂] at hrec
          obtain ⟨ho, hcw, hfa⟩ := hrec
          rw [Option.some_bind, Option.some_bind]
          exact ⟨ho, hcw, List.Forall₂.cons ⟨hat, htx, hcol⟩ hfa⟩
    · rw [if_neg hsk, if_neg hsk]
      by_cases hrev : k = cw ∧ written = false ∧ mod = 0
      · rw [if_pos hrev, if_pos hrev]
        rw [writeColoured_congr c₁.text c₂.colours c₁.colours hcol.symm]
        cases hp : writeColoured c₁.text c₁.colours with
        | none => exact trivial
        | some p =>
          rw [Option.some_bind, Option.some_bind]
          have hrec := ih (k + 1) (cw + 1) (c₁.at_ + (c₁.text.length : Int)) true
          cases hq₁ : topScanAux mod cs₁ (k + 1) (cw + 1)
              (c₁.at_ + (c₁.text.length : Int)) true with
          | none =>
            rw [hq₁] at hrec
            cases hq₂ : topScanAux mod cs₂ (k + 1) (cw + 1)
                (c₁.at_ + (c₁.text.length : Int)) true with
            | none => exact trivial
            | some q₂ => rw [hq₂] at hrec; cases hrec
          | some q₁ =>
            rw [hq₁] at hrec
            cases hq₂ : topScanAux mod cs₂ (k + 1) (cw + 1)
                (c₁.at_ + (c₁.text.length : Int)) true with
            | none => rw [hq₂] at hrec; cases hrec
            | some q₂ =>
              rw [hq₂] at hrec
              obtain ⟨ho, hcw, hfa⟩ := hrec
              rw [Option.some_bind, Option.some_bind]
              exact ⟨by rw [ho], hcw, List.Forall₂.cons ⟨rfl, rfl, rfl⟩ hfa⟩
      · rw [if_neg hrev, if_neg hrev]
        by_cases harr : k + 1 = cw ∧ mod = 1
        · rw [if_pos harr, if_pos harr]
          have hrec := ih (k + 1) cw (c₁.at_ + 1) written
          cases hq₁ : topScanAux mod cs₁ (k + 1) cw (c₁.at_ + 1) written with
          | none =>
            rw [hq₁] at hrec
            cases hq₂ : topScanAux mod cs₂ (k + 1) cw (c₁.at_ + 1) written with
            | none => exact trivial
            | some q₂ => rw [hq₂] at hrec; cases hrec
          | some q₁ =>
            rw [hq₁] at hrec
            cases hq₂ : topScanAux mod cs₂ (k + 1) cw (c₁.at_ + 1) written with
            | none => rw [hq₂] at hrec; cases hrec
            | some q₂ =>
              rw [hq₂] at hrec
              obtain ⟨ho, hcw, hfa⟩ := hrec
              rw [Option.some_bind, Option.some_bind]
              exact ⟨by rw [ho], hcw, List.Forall₂.cons ⟨hat, htx, hcol⟩ hfa⟩
        · rw [if_neg harr, if_neg harr]
          by_cases hlt : k < cw
          · rw [if_pos hlt, if_pos hlt]
            have hrec := ih (k + 1) cw (c₁.at_ + 1) written
            cases hq₁ : topScanAux mod cs₁ (k + 1) cw (c₁.at_ + 1) written with
            | none =>
              rw [hq₁] at hrec
              cases hq₂ : topScanAux mod cs₂ (k + 1) cw (c₁.at_ + 1) written with
              | none => exact trivial
              | some q₂ => rw [hq₂] at hrec; cases hrec
            | some q₁ =>
              rw [hq₁] at hrec
              cases hq₂ : topScanAux mod cs₂ (k + 1) cw (c₁.at_ + 1) written with
              | none => rw [hq₂] at hrec; cases hrec
              | some q₂ =>
                rw [hq₂] at hrec
                obtain ⟨ho, hcw, hfa⟩ := hrec
                rw [Option.some_bind, Option.some_bind]
                exact ⟨by rw [ho], hcw, List.Forall₂.cons ⟨hat, htx, hcol⟩ hfa⟩
          · rw [if_neg hlt, if_neg hlt]
            have hrec := ih (k + 1) cw c₁.at_ written
            cases hq₁ : topScanAux mod cs₁ (k + 1) cw c₁.at_ written with
            | none =>
              rw [hq₁] at hrec
              cases hq₂ : topScanAux mod cs₂ (k + 1) cw c₁.at_ written with
              | none => exact trivial
              | some q₂ => rw [hq₂] at hrec; cases hrec
            | some q₁ =>
              rw [hq₁] at hrec
              cases hq₂ : topScanAux mod cs₂ (k + 1) cw c₁.at_ written with
              | none => rw [hq₂] at hrec; cases hrec
              | some q₂ =>
                rw [hq₂] at hrec
                obtain ⟨ho, hcw, hfa⟩ := hrec
                rw [Option.some_bind, Option.some_bind]
                exact ⟨by rw [ho], hcw, List.Forall₂.cons ⟨hat, htx, hcol⟩ hfa⟩

/-- Above rows print the same on paint-equal comment lists. -/
theorem topLoop_congr (g : String) (fuel : Nat) :
    ∀ (j cw : Nat) (cs₁ cs₂ : List commentInfo),
    List.Forall₂ commentPaintEq cs₁ cs₂ →
    (topLoop g fuel j cw cs₁).map Prod.fst = (topLoop g fuel j cw cs₂).map Prod.fst := by
  induction fuel with
  | zero =>
    intro j cw cs₁ cs₂ _
    rfl
  | succ fuel ih =>
    intro j cw cs₁ cs₂ h
    rw [topLoop_succ, topLoop_succ]
    have hbody := topScanAux_congr (j % 3) cs₁ cs₂ h 0 cw 0 false
    cases hb₁ : topScanAux (j % 3) cs₁ 0 cw 0 false with
    | none =>
      rw [hb₁] at hbody
      cases hb₂ : topScanAux (j % 3) cs₂ 0 cw 0 false with
      | none => rfl
      | some r₂ => rw [hb₂] at hbody; cases hbody
    | some r₁ =>
      rw [hb₁] at hbody
      cases hb₂ : topScanAux (j % 3) cs₂ 0 cw 0 false with
      | none => rw [hb₂] at hbody; cases hbody
      | some r₂ =>
        rw [hb₂] at hbody
        obtain ⟨ho, hcw, hfa⟩ := hbody
        rw [Option.some_bind, Option.some_bind]
        have hrec := ih (j + 1) r₁.2.1 r₁.2.2 r₂.2.2 hfa
        rw [hcw] at hrec
        rw [show (topLoop g fuel (j + 1) r₁.2.1 r₁.2.2) =
            (topLoop g fuel (j + 1) r₂.2.1 r₁.2.2) from by rw [hcw]]
        cases hq₁ : topLoop g fuel (j + 1) r₂.2.1 r₁.2.2 with
        | none =>
          cases hq₂ : topLoop g fuel (j + 1) r₂.2.1 r₂.2.2 with
          | none => rfl
          | some q₂ =>
            rw [hq₁, hq₂] at hrec
            simp at hrec
        | some q₁ =>
          cases hq₂ : topLoop g fuel (j + 1) r₂.2.1 r₂.2.2 with
          | none =>
            rw [hq₁, hq₂] at hrec
            simp at hrec
          | some q₂ =>
            rw [hq₁, hq₂] at hrec
            simp only [Option.map_some', Option.some.injEq] at hrec
            simp only [Option.some_bind, Option.map_some', Option.some.injEq]
            rw [ho, hrec]

/-- One line prints the same on paint-equal lines. -/
theorem renderLine_congr (L : Nat) (l₁ l₂ : lineInfo) (h : linePaintEq l₁ l₂) :
    (renderLine L l₁).map Prod.fst = (renderLine L l₂).map Prod.fst := by
  obtain ⟨htx, hmeta, hcols, htop, hbot⟩ := h
  have htl := htop.length_eq
  have hbl := hbot.length_eq
  have ht := topLoop_congr (writePfx "" L) (3 * l₁.topComments.length) 0 0
    l₁.topComments l₂.topComments htop
  have hb := bottomLoop_congr (writePfx "" L) (3 * l₁.bottomComments.length) 0 [] []
    l₁.bottomComments l₂.bottomComments hbot
  have hlc : writeColoured l₂.text l₂.colours = writeColoured l₁.text l₁.colours := by
    rw [← htx]
    exact (writeColoured_congr _ _ _ hcols).symm
  unfold renderLine writeTopComments writeBottomComments
  rw [← htl, ← hbl, ← hmeta, hlc, ← htx]
  cases htp₁ : topLoop (writePfx "" L) (3 * l₁.topComments.length) 0 0 l₁.topComments with
  | none =>
    cases htp₂ : topLoop (writePfx "" L) (3 * l₁.topComments.length) 0 0 l₂.topComments with
    | none => rfl
    | some tp₂ =>
      rw [htp₁, htp₂] at ht
      simp at ht
  | some tp₁ =>
    cases htp₂ : topLoop (writePfx "" L) (3 * l₁.topComments.length) 0 0 l₂.topComments with
    | none =>
      rw [htp₁, htp₂] at ht
      simp at ht
    | some tp₂ =>
      rw [htp₁, htp₂] at ht
      simp only [Option.map_some', Option.some.injEq] at ht
      cases hcl : writeColoured l₁.text l₁.colours with
      | none => rfl
      | some cl =>
        cases hbt₁ : bottomLoop (writePfx "" L) (3 * l₁.bottomComments.length) 0 []
            l₁.bottomComments with
        | none =>
          cases hbt₂ : bottomLoop (writePfx "" L) (3 * l₁.bottomComments.length) 0 []
              l₂.bottomComments with
          | none => rfl
          | some bt₂ =>
            rw [hbt₁, hbt₂] at hb
            simp at hb
        | some bt₁ =>
          cases hbt₂ : bottomLoop (writePfx "" L) (3 * l₁.bottomComments.length) 0 []
              l₂.bottomComments with
          | none =>
            rw [hbt₁, hbt₂] at hb
            simp at hb
          | some bt₂ =>
            rw [hbt₁, hbt₂] at hb
            simp only [Option.map_some', Option.some.injEq] at hb
            show some (tp₁.1 ++ writePfx l₁.meta.cachedPfx L ++ cl.1 ++ "\n" ++ bt₁.1) =
              some (tp₂.1 ++ writePfx l₁.meta.cachedPfx L ++ cl.1 ++ "\n" ++ bt₂.1)
            rw [ht, hb]

/-- The whole pass-2 prints the same on paint-equal line lists. -/
theorem renderLines_congr (L : Nat) (ls₁ ls₂ : List lineInfo)
    (h : List.Forall₂ linePaintEq ls₁ ls₂) :
    (renderLines L ls₁).map Prod.fst = (renderLines L ls₂).map Prod.fst := by
  induction h with
  | nil => rfl
  | @cons l₁ l₂ ls₁ ls₂ hl htl ih =>
    unfold renderLines
    have h1 := renderLine_congr L l₁ l₂ hl
    cases hr₁ : renderLine L l₁ with
    | none =>
      cases hr₂ : renderLine L l₂ with
      | none => rfl
      | some r₂ =>
        rw [hr₁, hr₂] at h1
        simp at h1
    | some r₁ =>
      cases hr₂ : renderLine L l₂ with
      | none =>
        rw [hr₁, hr₂] at h1
        simp at h1
      | some r₂ =>
        rw [hr₁, hr₂] at h1
        simp only [Option.map_some', Option.some.injEq] at h1
        cases hq₁ : renderLines L ls₁ with
        | none =>
          cases hq₂ : renderLines L ls₂ with
          | none => rfl
          | some q₂ =>
            rw [hq₁, hq₂] at ih
            simp at ih
        | some q₁ =>
          cases hq₂ : renderLines L ls₂ with
          | none =>
            rw [hq₁, hq₂] at ih
            simp at ih
          | some q₂ =>
            rw [hq₁, hq₂] at ih
            simp only [Option.map_some', Option.some.injEq] at ih
            show some (r₁.1 ++ q₁.1) = some (r₂.1 ++ q₂.1)
            rw [h1, ih]

/-- A generated prefix is never empty. -/
theorem pfx_ne_empty (a b : String) : a ++ " @ " ++ b ≠ "" := by
  intro hcontra
  have := congrArg String.length hcontra
  rw [String.length_append, String.length_append] at this
  have h3 : (" @ " : String).length = 3 := rfl
  rw [h3] at this
  simp at this

/-- Prefix generation is idempotent. -/
theorem generatePfx_idem (m : LineMetadata) : generatePfx (generatePfx m) = generatePfx m := by
  by_cases h : m.cachedPfx = ""
  · have hstep : generatePfx m =
        { m with cachedPfx := m.FileName ++ " @ " ++ toString m.LineNumber } := by
      unfold generatePfx
      rw [if_pos h]
    rw [hstep]
    unfold generatePfx
    rw [if_neg (pfx_ne_empty m.FileName (toString m.LineNumber))]
  · have hstep : generatePfx m = m := by
      unfold generatePfx
      rw [if_neg h]
    rw [hstep, hstep]

/-- Updating a line's metadata with its own value is the identity. -/
theorem lineInfo_meta_eta (l : lineInfo) : ({ l with meta := l.meta } : lineInfo) = l := by
  cases l
  rfl

/-- Rendering preserves the already-generated prefixes. -/
theorem forall₂_lineUpd_meta (m fin : List lineInfo)
    (h : List.Forall₂ lineUpd m fin)
    (hsrc : ∀ x ∈ m, generatePfx x.meta = x.meta) :
    ∀ y ∈ fin, generatePfx y.meta = y.meta := by
  induction h with
  | nil =>
    intro y hy
    cases hy
  | @cons l l' ls fin' hl htl ih =>
    intro y hy
    rcases List.mem_cons.mp hy with rfl | hy
    · rw [hl.2.1, hsrc l (by simp)]
    · exact ih (fun x hx => hsrc x (by simp [hx])) y hy

/-- Rendering preserves the prefix-length profile. -/
theorem forall₂_lineUpd_pfxlen (m fin : List lineInfo)
    (h : List.Forall₂ lineUpd m fin) :
    fin.map (fun l => l.meta.cachedPfx.length) = m.map fun l => l.meta.cachedPfx.length := by
  induction h with
  | nil => rfl
  | @cons l l' ls fin' hl htl ih =>
    simp only [List.map_cons]
    rw [hl.2.1, ih]

/-- An in-place update leaves a comment paint-equal to the original. -/
theorem commentUpd_paintEq (c c' : commentInfo) (h : commentUpd c c') :
    commentPaintEq c c' := by
  rcases h with rfl | rfl
  · exact ⟨rfl, rfl, rfl⟩
  · exact ⟨rfl, rfl, (sortColours_idem c.colours).symm⟩

/-- An in-place update leaves a line paint-equal to the original. -/
theorem lineUpd_paintEq (l l' : lineInfo) (h : lineUpd l l') : linePaintEq l l' := by
  obtain ⟨htx, hmeta, hcols, htop, hbot⟩ := h
  exact ⟨htx.symm, hmeta.symm, by rw [hcols, sortColours_idem],
    htop.imp commentUpd_paintEq, hbot.imp commentUpd_paintEq⟩

/-- C8 (confirmed).  Rendering is idempotent as an observation: rendering the
decorator that a first render left behind produces exactly the same output
string.  The in-place effects (prefx memoization and colour sorting) do not
change what a second render prints. -/
theorem C8_render_idempotent (d : Decorator) (s : String) (d1 : Decorator)
    (h : DecoratorString d = some (s, d1)) :
    (DecoratorString d1).map Prod.fst = some s := by
  unfold DecoratorString at h
  rcases hr : renderLines
      (longestPfx (d.lines.map fun l => { l with meta := generatePfx l.meta }))
      (d.lines.map fun l => { l with meta := generatePfx l.meta }) with _ | q
  · rw [hr] at h
    cases h
  · rw [hr] at h
    simp only [Option.map_some', Option.some.injEq, Prod.mk.injEq] at h
    obtain ⟨hs, hd1⟩ := h
    subst hd1
    have hfa := renderLines_upd _ _ q.1 q.2 (by rw [hr])
    have hmeta_src : ∀ x ∈ d.lines.map (fun l => { l with meta := generatePfx l.meta }),
        generatePfx x.meta = x.meta := by
      intro x hx
      obtain ⟨y, hy, rfl⟩ := List.mem_map.mp hx
      show generatePfx (generatePfx y.meta) = generatePfx y.meta
      exact generatePfx_idem y.meta
    have hmeta_fin : ∀ y ∈ q.2, generatePfx y.meta = y.meta :=
      forall₂_lineUpd_meta _ _ hfa hmeta_src
    have hmap_fin : (q.2.map fun l => { l with meta := generatePfx l.meta }) = q.2 := by
      have h1 : (q.2.map fun l => { l with meta := generatePfx l.meta }) =
          q.2.map id := by
        apply List.map_congr_left
        intro a ha
        show ({ a with meta := generatePfx a.meta } : lineInfo) = a
        rw [hmeta_fin a ha]
      rw [h1, List.map_id]
    have hlen_fin : longestPfx q.2 =
        longestPfx (d.lines.map fun l => { l with meta := generatePfx l.meta }) := by
      unfold longestPfx
      rw [forall₂_lineUpd_pfxlen _ _ hfa]
    have hpaint : List.Forall₂ linePaintEq
        (d.lines.map fun l => { l with meta := generatePfx l.meta }) q.2 :=
      hfa.imp lineUpd_paintEq
    have hcong := renderLines_congr
      (longestPfx (d.lines.map fun l => { l with meta := generatePfx l.meta }))
      (d.lines.map fun l => { l with meta := generatePfx l.meta }) q.2 hpaint
    rw [hr] at hcong
    show ((renderLines
        (longestPfx ((Decorator.mk q.2).lines.map fun l => { l with meta := generatePfx l.meta }))
        ((Decorator.mk q.2).lines.map fun l => { l with meta := generatePfx l.meta })).map
          fun p => (p.1, (⟨p.2⟩ : Decorator))).map Prod.fst = some s
    rw [show (Decorator.mk q.2).lines = q.2 from rfl, hmap_fin, hlen_fin]
    rw [Option.map_map]
    rw [show (Prod.fst ∘ fun p : String × List lineInfo => (p.1, (⟨p.2⟩ : Decorator))) =
        Prod.fst from rfl]
    rw [← hcong]
    simp [hs]

/-- Witness for C8: the one-line coloured document. -/
theorem C8_render_idempotent_witness :
    (DecoratorString ⟨[⟨"ab", [⟨0, 1, "C"⟩], ⟨1, "f", "f @ 1"⟩, [], []⟩]⟩).map Prod.fst =
      some "f @ 1 | Ca\x1b[0mb\n" :=
  C8_render_idempotent docOneColour "f @ 1 | Ca\x1b[0mb\n"
    ⟨[⟨"ab", [⟨0, 1, "C"⟩], ⟨1, "f", "f @ 1"⟩, [], []⟩]⟩ (by decide)
